import Mathlib

/-!
Memcomparable key codec of `test_tikv_client_go` (`src/main.go`).

A shallow embedding of the encode/decode layer of `main.go` and the properties of it
that the specification states.

Conventions of the embedding:

* a Go `[]byte` is a `List Nat`; every byte the encoders write is reduced `% 256`
  where the Go arithmetic could leave the byte range;
* a Go `int64` is an `Int` in `[-2^63, 2^63)`; `wrapInt64` is the two's complement
  wrap-around of `int64` arithmetic and `toUint64` the conversion `uint64(v)`;
* a Go `int` holding a length or position is a `Nat` (or an `Int` where the source
  subtracts);
* an operation that can panic at run time (slice or index out of range) returns an
  `Option`, with `none` for the panic; loops carry a fuel argument and also answer
  `none` when it runs out, which the totality lemmas exclude;
* text produced by `fmt.Sprintf` is a `String`; the verb `%q` (`strconv.Quote`, whose
  printability tables are not part of the program) is a parameter `quote` of the
  functions that format with it.

A statement about all byte sequences is proved for all lists, hence for those whose entries
are below 256.
-/

namespace TikvCodec

/-! ## Go primitives -/

/-- Lower bound of `int64`. -/
def minInt64 : Int := -9223372036854775808

/-- Upper bound of `int64`. -/
def maxInt64 : Int := 9223372036854775807

/-- Membership in the `int64` range. -/
def isInt64 (v : Int) : Prop := minInt64 ≤ v ∧ v ≤ maxInt64

instance (v : Int) : Decidable (isInt64 v) := by
  unfold isInt64; exact inferInstance

/-- Two's complement wrap-around of a mathematical integer into `int64`; it is what Go's
`int64` addition computes, and also the reinterpretation `int64(u)` of a `uint64`. -/
def wrapInt64 (x : Int) : Int := (x + 9223372036854775808) % 18446744073709551616 - 9223372036854775808

/-- Go conversion `uint64(v)` of an `int64`. -/
def toUint64 (v : Int) : Nat := (v % 18446744073709551616).toNat

/-- Go slice expression `data[lo:hi]`; `none` is the out-of-range panic. The bounds are checked
against the length (Go checks against the capacity, which is never smaller, so every access
that is safe here is safe in Go). -/
def slice (data : List Nat) (lo hi : Nat) : Option (List Nat) :=
  if lo ≤ hi ∧ hi ≤ data.length then some ((data.drop lo).take (hi - lo)) else none

/-- Go slice expression `data[lo:]`. -/
def sliceFrom (data : List Nat) (lo : Nat) : Option (List Nat) :=
  if lo ≤ data.length then some (data.drop lo) else none

/-- Go builtin `copy(dst, src)`: the contents of `dst` afterwards. -/
def goCopy (dst src : List Nat) : List Nat := src.take dst.length ++ dst.drop src.length

/-- The function `binary.BigEndian.PutUint64` on a fresh 8-byte buffer. -/
def putUint64 (u : Nat) : List Nat :=
  [u / 72057594037927936 % 256, u / 281474976710656 % 256, u / 1099511627776 % 256,
   u / 4294967296 % 256, u / 16777216 % 256, u / 65536 % 256, u / 256 % 256, u % 256]

/-- The function `binary.BigEndian.Uint64` on an 8-byte buffer: `b[0]<<56 | ... | b[7]`. -/
def bigEndianUint64 (buf : List Nat) : Nat :=
  (buf.take 8).foldl (fun acc b => acc * 256 + b) 0

/-- The statement `buf[0] ^= 0x80`. -/
def flipSignBit (buf : List Nat) : List Nat :=
  match buf with
  | [] => []
  | b :: rest => (b ^^^ 0x80) :: rest

/-! ## Integer transform -/

/-- Source `encodeI64` (main.go 338-343): big-endian `uint64(val)` with the sign bit flipped. -/
def encodeI64 (val : Int) : List Nat :=
  flipSignBit (putUint64 (toUint64 val))

/-- Source `decodeI64` (main.go 379-384): `data[:8]` panics on fewer than 8 bytes. -/
def decodeI64 (data : List Nat) : Option Int := do
  let src ← slice data 0 8
  let buf := goCopy (List.replicate 8 0) src
  some (wrapInt64 (bigEndianUint64 (flipSignBit buf)))

/-! ## Chunked byte encoder / decoder -/

/-- Loop of `encodeMemcomparableBytes` (main.go 353-366) with state `encoded`, `pos`. -/
def encodeMemcomparableBytesLoop (data : List Nat) : Nat → List Nat → Nat → Option (List Nat)
  | 0, _, _ => none
  | fuel + 1, encoded, pos =>
    let remaining : Int := (data.length : Int) - (pos : Int)
    if remaining ≥ 8 then
      encodeMemcomparableBytesLoop data fuel
        (encoded ++ (data.drop pos).take 8 ++ [0xff]) (pos + 8)
    else
      let group := goCopy (List.replicate 8 0) (data.drop pos)
      some (encoded ++ group ++ [(0xff + 256 - ((8 - remaining) % 256).toNat) % 256])

/-- Source `encodeMemcomparableBytes` (main.go 350-368). The loop runs `len(data)/8 + 1` times;
`encodeMemcomparableBytesLoop_eq` shows that this fuel always suffices. -/
def encodeMemcomparableBytes (data : List Nat) : List Nat :=
  (encodeMemcomparableBytesLoop data (data.length / 8 + 1) [] 0).getD []

/-- Source `encodeTablePrefix` (main.go 371-374). -/
def encodeTablePrefix (tableID : Int) : List Nat :=
  encodeMemcomparableBytes ([116] ++ encodeI64 tableID)

/-- Loop of `decodeMemcomparableBytes` (main.go 391-408) over `encoded` with state `decoded`,
`pos`. The same loop body is inlined in `decodeIndexColumns` (main.go 433-450). -/
def decodeMemcomparableBytesLoop (encoded : List Nat) :
    Nat → List Nat → Nat → Option (List Nat × Nat)
  | 0, _, _ => none
  | fuel + 1, decoded, pos =>
    if pos + 9 > encoded.length then some (decoded, pos)
    else do
      let group ← slice encoded pos (pos + 8)
      let marker ← encoded[pos + 8]?
      let pos := pos + 9
      if marker = 0xff then
        decodeMemcomparableBytesLoop encoded fuel (decoded ++ group) pos
      else
        let padCount := 0xff - marker
        if padCount ≤ 8 then do
          let part ← slice group 0 (8 - padCount)
          some (decoded ++ part, pos)
        else some (decoded, pos)

/-- Source `decodeMemcomparableBytes` (main.go 388-410): the decoded bytes and the number of
input bytes consumed. -/
def decodeMemcomparableBytes (encoded : List Nat) : Option (List Nat × Nat) :=
  decodeMemcomparableBytesLoop encoded (encoded.length / 9 + 1) [] 0

/-- Lexicographic comparison of byte strings (what `bytes.Compare` orders by). -/
def lexLt (a b : List Nat) : Prop := List.Lex (· < ·) a b

instance (a b : List Nat) : Decidable (lexLt a b) := by
  unfold lexLt; exact inferInstance

/-! ## Formatting and text -/

/-- The verb `%02x` of `fmt.Sprintf` on an unsigned value: lower-case hexadecimal, zero-padded
to at least two digits. -/
def hex2 (b : Nat) : String :=
  let ds := Nat.toDigits 16 b
  String.mk (List.replicate (2 - ds.length) '0' ++ ds)

/-- The verb `%d` of `fmt.Sprintf` on an `int64`. -/
def fmtInt (v : Int) : String := toString v

/-- The verb `%d` of `fmt.Sprintf` on a length. -/
def fmtLen (n : Nat) : String := toString n

/-- Go's decoding of the rune at the head of a non-empty string during `for _, r := range s`
(the runtime's `decoderune`, with the ASCII fast path): the rune and its width in bytes.
Malformed input yields `0xFFFD` with width 1. -/
def decodeRune (s : List Nat) : Nat × Nat :=
  match s with
  | [] => (0xfffd, 1)
  | b0 :: rest =>
    if b0 < 0x80 then (b0, 1)
    else if 0xc0 ≤ b0 ∧ b0 < 0xe0 then
      match rest with
      | b1 :: _ =>
        if 0x80 ≤ b1 ∧ b1 ≤ 0xbf then
          let r := ((b0 &&& 0x1f) <<< 6) ||| (b1 &&& 0x3f)
          if 0x7f < r then (r, 2) else (0xfffd, 1)
        else (0xfffd, 1)
      | _ => (0xfffd, 1)
    else if 0xe0 ≤ b0 ∧ b0 < 0xf0 then
      match rest with
      | b1 :: b2 :: _ =>
        if (0x80 ≤ b1 ∧ b1 ≤ 0xbf) ∧ (0x80 ≤ b2 ∧ b2 ≤ 0xbf) then
          let r := ((b0 &&& 0x0f) <<< 12) ||| ((b1 &&& 0x3f) <<< 6) ||| (b2 &&& 0x3f)
          if 0x7ff < r ∧ ¬ (0xd800 ≤ r ∧ r ≤ 0xdfff) then (r, 3) else (0xfffd, 1)
        else (0xfffd, 1)
      | _ => (0xfffd, 1)
    else if 0xf0 ≤ b0 ∧ b0 < 0xf8 then
      match rest with
      | b1 :: b2 :: b3 :: _ =>
        if (0x80 ≤ b1 ∧ b1 ≤ 0xbf) ∧ (0x80 ≤ b2 ∧ b2 ≤ 0xbf) ∧ (0x80 ≤ b3 ∧ b3 ≤ 0xbf) then
          let r := ((b0 &&& 0x07) <<< 18) ||| ((b1 &&& 0x3f) <<< 12) ||| ((b2 &&& 0x3f) <<< 6)
            ||| (b3 &&& 0x3f)
          if 0xffff < r ∧ r ≤ 0x10ffff then (r, 4) else (0xfffd, 1)
        else (0xfffd, 1)
      | _ => (0xfffd, 1)
    else (0xfffd, 1)

/-- Loop of `isValidUTF8` (main.go 553-557) over the bytes still to be ranged over. -/
def isValidUTF8Loop : Nat → List Nat → Option Bool
  | 0, _ => none
  | fuel + 1, s =>
    if s.length = 0 then some true
    else
      let rw := decodeRune s
      if rw.1 = 0xfffd then some false
      else isValidUTF8Loop fuel (s.drop rw.2)

/-- Source `isValidUTF8` (main.go 552-559) on the bytes of the string. -/
def isValidUTF8 (s : List Nat) : Option Bool := isValidUTF8Loop (s.length + 1) s

/-- Inner loop of the `0x01` case of `decodeIndexColumns` (main.go 433-450) over `data` with
state `decoded`, `pos`. -/
def decodeIndexColumnsBytesLoop (data : List Nat) :
    Nat → List Nat → Nat → Option (List Nat × Nat)
  | 0, _, _ => none
  | fuel + 1, decoded, pos =>
    if pos + 9 > data.length then some (decoded, pos)
    else do
      let group ← slice data pos (pos + 8)
      let marker ← data[pos + 8]?
      let pos := pos + 9
      if marker = 0xff then
        decodeIndexColumnsBytesLoop data fuel (decoded ++ group) pos
      else
        let pad := 0xff - marker
        if pad ≤ 8 then do
          let part ← slice group 0 (8 - pad)
          some (decoded ++ part, pos)
        else some (decoded, pos)

/-- Outer loop of `decodeIndexColumns` (main.go 417-460) with state `result`, `pos`; the value
is `result` at the label `done`. The parameter `quote` is the verb `%q` of `fmt.Sprintf`
(`strconv.Quote`) on the bytes of a string. -/
def decodeIndexColumnsLoop (quote : List Nat → String) (data : List Nat) :
    Nat → List String → Nat → Option (List String)
  | 0, _, _ => none
  | fuel + 1, result, pos =>
    if pos < data.length then do
      let typeFlag ← data[pos]?
      let pos := pos + 1
      if typeFlag = 0x03 then
        if pos + 8 ≤ data.length then do
          let window ← slice data pos (pos + 8)
          let val ← decodeI64 window
          decodeIndexColumnsLoop quote data fuel (result ++ ["int=" ++ fmtInt val]) (pos + 8)
        else some (result ++ ["int=<truncated>"])
      else if typeFlag = 0x01 then do
        let dp ← decodeIndexColumnsBytesLoop data (data.length / 9 + 1) [] pos
        let valid ← isValidUTF8 dp.1
        if valid then
          decodeIndexColumnsLoop quote data fuel (result ++ ["str=" ++ quote dp.1]) dp.2
        else
          decodeIndexColumnsLoop quote data fuel
            (result ++ ["bytes=<" ++ fmtLen dp.1.length ++ " bytes>"]) dp.2
      else some (result ++ ["unknown_type=0x" ++ hex2 typeFlag])
    else some result

/-- Source `decodeIndexColumns` (main.go 413-467). -/
def decodeIndexColumns (quote : List Nat → String) (data : List Nat) : Option String := do
  let result ← decodeIndexColumnsLoop quote data (data.length + 1) [] 0
  if result.length = 0 then some ("<" ++ fmtLen data.length ++ " bytes>")
  else some (String.intercalate ", " result)

/-- Source `decodeLogicalKeyDetailed` (main.go 249-285). -/
def decodeLogicalKeyDetailed (quote : List Nat → String) (key : List Nat) : Option String :=
  if key.length = 0 then some "key (tidb): not a table key"
  else do
    let k0 ← key[0]?
    if k0 ≠ 116 then some "key (tidb): not a table key"
    else if key.length < 9 then
      some ("key (tidb): table key too short (" ++ fmtLen key.length ++ " bytes)")
    else do
      let tableID ← (slice key 1 9).bind decodeI64
      if key.length < 11 then some ("key (tidb): table_id=" ++ fmtInt tableID)
      else do
        let tag ← slice key 9 11
        if tag = [95, 114] then
          if key.length ≥ 19 then do
            let rowID ← (slice key 11 19).bind decodeI64
            some ("key (tidb): table_id=" ++ fmtInt tableID ++ ", record, row_id=" ++ fmtInt rowID)
          else some ("key (tidb): table_id=" ++ fmtInt tableID ++ ", record (row_id truncated)")
        else if tag = [95, 105] then
          if key.length ≥ 19 then do
            let indexID ← (slice key 11 19).bind decodeI64
            let result := "key (tidb): table_id=" ++ fmtInt tableID ++ ", index_id="
              ++ fmtInt indexID
            if key.length > 19 then do
              let indexData ← sliceFrom key 19
              let columns ← decodeIndexColumns quote indexData
              some (result ++ "\n  key (index): " ++ columns)
            else some result
          else some ("key (tidb): table_id=" ++ fmtInt tableID ++ ", index (index_id truncated)")
        else do
          let k9 ← key[9]?
          let k10 ← key[10]?
          some ("key (tidb): table_id=" ++ fmtInt tableID ++ ", unknown tag " ++ hex2 k9
            ++ hex2 k10)

/-- Source `decodeTiDBKeyDetailed` (main.go 289-333). -/
def decodeTiDBKeyDetailed (quote : List Nat → String) (rawKey : List Nat) : Option String := do
  let kc ← decodeMemcomparableBytes rawKey
  let key := kc.1
  let remaining : Int := (rawKey.length : Int) - (kc.2 : Int)
  if key.length = 0 then some "key (tidb): not a table key"
  else do
    let k0 ← key[0]?
    if k0 ≠ 116 then some "key (tidb): not a table key"
    else if key.length < 9 then
      some ("key (tidb): table key too short (" ++ fmtLen key.length ++ " decoded bytes)")
    else do
      let tableID ← (slice key 1 9).bind decodeI64
      if key.length < 11 then some ("key (tidb): table_id=" ++ fmtInt tableID)
      else do
        let tag ← slice key 9 11
        let suffix := if remaining > 0 then " (+ " ++ fmtInt remaining ++ " bytes mvcc)" else ""
        if tag = [95, 114] then
          if key.length ≥ 19 then do
            let rowID ← (slice key 11 19).bind decodeI64
            some ("key (tidb): table_id=" ++ fmtInt tableID ++ ", record, row_id=" ++ fmtInt rowID
              ++ suffix)
          else
            some ("key (tidb): table_id=" ++ fmtInt tableID ++ ", record (row_id truncated)"
              ++ suffix)
        else if tag = [95, 105] then
          if key.length ≥ 19 then do
            let indexID ← (slice key 11 19).bind decodeI64
            let result := "key (tidb): table_id=" ++ fmtInt tableID ++ ", index_id="
              ++ fmtInt indexID ++ suffix
            if key.length > 19 then do
              let indexData ← sliceFrom key 19
              let columns ← decodeIndexColumns quote indexData
              some (result ++ "\n  key (index): " ++ columns)
            else some result
          else
            some ("key (tidb): table_id=" ++ fmtInt tableID ++ ", index (index_id truncated)"
              ++ suffix)
        else do
          let k9 ← key[9]?
          let k10 ← key[10]?
          some ("key (tidb): table_id=" ++ fmtInt tableID ++ ", unknown tag " ++ hex2 k9
            ++ hex2 k10 ++ suffix)

/-- The test `len(k) >= 11 && k[0] == 't' && string(k[9:11]) == "_i"` of `isIndexKey`, with
Go's left-to-right short-circuit evaluation. -/
def isIndexKeyTest (k : List Nat) : Option Bool :=
  if k.length ≥ 11 then do
    let k0 ← k[0]?
    if k0 = 116 then do
      let tag ← slice k 9 11
      some (decide (tag = [95, 105]))
    else some false
  else some false

/-- Source `isIndexKey` (main.go 239-245). -/
def isIndexKey (key : List Nat) (rawMode : Bool) : Option Bool :=
  if rawMode then do
    let dc ← decodeMemcomparableBytes key
    isIndexKeyTest dc.1
  else isIndexKeyTest key

/-- One probe of `decodeIndexValue` (main.go 487-490, 495-499, 504-507): the candidate list
after decoding the window `val[lo:hi]` recorded under `offset`. -/
def probeHandle (val : List Nat) (lo hi offset : Nat) (candidates : List (Nat × Int)) :
    Option (List (Nat × Int)) := do
  let h ← (slice val lo hi).bind decodeI64
  if h > 0 ∧ h < 1000000000 then some (candidates ++ [(offset, h)]) else some candidates

/-- The variable `candidates` of `decodeIndexValue` (main.go 470-508) when the function reaches
its end or returns early: pairs of offset and value. -/
def decodeIndexValueCandidates (val : List Nat) : Option (List (Nat × Int)) :=
  if val.length = 0 then some []
  else if val.length < 8 then some []
  else do
    let candidates : List (Nat × Int) := []
    let candidates ← if val.length ≥ 9 then probeHandle val 1 9 1 candidates else some candidates
    let candidates ←
      if val.length ≥ 8 then
        probeHandle val (val.length - 8) val.length (val.length - 8) candidates
      else some candidates
    let candidates ← if val.length ≥ 17 then probeHandle val 9 17 9 candidates else some candidates
    some candidates

/-- The verb `%v` of `fmt.Printf` on the candidate list: each struct as its offset and value
between braces, the structs separated by blanks, the list between square brackets. -/
def fmtCandidates (candidates : List (Nat × Int)) : String :=
  "[" ++ String.intercalate " "
    (candidates.map (fun c => "\x7b" ++ fmtLen c.1 ++ " " ++ fmtInt c.2 ++ "\x7d")) ++ "]"

/-- Source `decodeIndexValue` (main.go 470-514): the lines it prints, which read
`candidates[0]` when the list is not empty. -/
def decodeIndexValue (val : List Nat) : Option (List String) := do
  let candidates ← decodeIndexValueCandidates val
  if candidates.length > 0 then do
    let first ← candidates[0]?
    some ["  val (parsed): handle_candidates=" ++ fmtCandidates candidates ++ "\n",
      "  val (handle): _tidb_rowid=" ++ fmtInt first.2 ++ " (at offset " ++ fmtLen first.1
        ++ ")\n"]
  else some []

/-- The logical-mode scan start key of `main` (main.go 96-102); `recordType` is the value of
`--type`. -/
def txnStartKey (tid : Int) (recordType : String) : List Nat :=
  let startKey := [116] ++ encodeI64 tid
  if recordType = "record" then startKey ++ [95, 114]
  else if recordType = "index" then startKey ++ [95, 105]
  else startKey

/-- The raw-mode scan start key of `main` (main.go 106-113). -/
def rawStartKey (tid : Int) (recordType : String) : List Nat :=
  let startLogical := [116] ++ encodeI64 tid
  let startLogical :=
    if recordType = "record" then startLogical ++ [95, 114]
    else if recordType = "index" then startLogical ++ [95, 105]
    else startLogical
  encodeMemcomparableBytes startLogical

/-- The raw-mode scan end key of `main` (main.go 114), `encodeTablePrefix(tid + 1)` with the
addition in `int64`. -/
def rawEndKey (tid : Int) : List Nat := encodeTablePrefix (wrapInt64 (tid + 1))

/-! ## Specification-side forms and proof vocabulary -/

/-- The chunked form as the specification words it, for `len(s) = 8k + r`: each of the `k`
full groups followed by `0xFF`, then the last `r` bytes zero-padded to 8 bytes and the marker
`0xFF - (8 - r) = 0xF7 + r`. -/
def chunkLayout (s : List Nat) (k r : Nat) : List Nat :=
  (List.range k).flatMap (fun i => (s.drop (8 * i)).take 8 ++ [0xff])
    ++ (s.drop (8 * k) ++ List.replicate (8 - r) 0)
    ++ [0xf7 + r]

/-- The chunked form of `s`, with `k = len(s) / 8` and `r = len(s) % 8`. -/
def chunkForm (s : List Nat) : List Nat := chunkLayout s (s.length / 8) (s.length % 8)

/-- Big-endian digits: the `k` low base-256 digits of `n`, most significant first. -/
def beBytes : Nat → Nat → List Nat
  | 0, _ => []
  | k + 1, n => (n / 256 ^ k % 256) :: beBytes k n

/-- The first `k` bytes of `s` right-padded with zero bytes. -/
def padTo (k : Nat) (s : List Nat) : List Nat := (s ++ List.replicate k 0).take k

/-! ## Specification-side forms of the parsers and of the heuristic -/

/-- The candidates a probe at `offset` contributes: the window value
`decodeI64(val[offset:offset+8])` when it lies strictly between 0 and 1,000,000,000. -/
def acceptedAt (val : List Nat) (offset : Nat) : List (Nat × Int) :=
  match decodeI64 ((val.drop offset).take 8) with
  | some v => if 0 < v ∧ v < 1000000000 then [(offset, v)] else []
  | none => []

/-- The probe offsets in probe order: 1 (only if `len(val) >= 9`), `len(val) - 8` (only if
`len(val) >= 8`), 9 (only if `len(val) >= 17`). -/
def handleProbeOffsets (val : List Nat) : List Nat :=
  (if 9 ≤ val.length then [1] else []) ++ (if 8 ≤ val.length then [val.length - 8] else [])
    ++ (if 17 ≤ val.length then [9] else [])

/-- The candidate list as the specification words it: the accepted probes, in probe order. -/
def handleCandidatesSpec (val : List Nat) : List (Nat × Int) :=
  (handleProbeOffsets val).flatMap (acceptedAt val)

/-- Containment of `sub` in `s` as a run of consecutive characters. -/
def strContains (s sub : String) : Prop := sub.data <:+: s.data

instance (s sub : String) : Decidable (strContains s sub) := by
  unfold strContains; exact inferInstance

/-- The trailing-byte note of `decodeTiDBKeyDetailed` (main.go 307-310). -/
def mvccSuffix (remaining : Int) : String :=
  if remaining > 0 then " (+ " ++ fmtInt remaining ++ " bytes mvcc)" else ""

/-- The grammar of main.go 250-284 and 293-332 written once: the description of the logical
bytes `key`, with `suffix` appended to the tag-bearing results and `shortNote` closing the
too-short result. -/
def describeKey (quote : List Nat → String) (key : List Nat) (suffix shortNote : String) :
    Option String :=
  if key.length = 0 then some "key (tidb): not a table key"
  else do
    let k0 ← key[0]?
    if k0 ≠ 116 then some "key (tidb): not a table key"
    else if key.length < 9 then
      some ("key (tidb): table key too short (" ++ fmtLen key.length ++ shortNote)
    else do
      let tableID ← (slice key 1 9).bind decodeI64
      if key.length < 11 then some ("key (tidb): table_id=" ++ fmtInt tableID)
      else do
        let tag ← slice key 9 11
        if tag = [95, 114] then
          if key.length ≥ 19 then do
            let rowID ← (slice key 11 19).bind decodeI64
            some ("key (tidb): table_id=" ++ fmtInt tableID ++ ", record, row_id=" ++ fmtInt rowID
              ++ suffix)
          else
            some ("key (tidb): table_id=" ++ fmtInt tableID ++ ", record (row_id truncated)"
              ++ suffix)
        else if tag = [95, 105] then
          if key.length ≥ 19 then do
            let indexID ← (slice key 11 19).bind decodeI64
            let result := "key (tidb): table_id=" ++ fmtInt tableID ++ ", index_id="
              ++ fmtInt indexID ++ suffix
            if key.length > 19 then do
              let indexData ← sliceFrom key 19
              let columns ← decodeIndexColumns quote indexData
              some (result ++ "\n  key (index): " ++ columns)
            else some result
          else
            some ("key (tidb): table_id=" ++ fmtInt tableID ++ ", index (index_id truncated)"
              ++ suffix)
        else do
          let k9 ← key[9]?
          let k10 ← key[10]?
          some ("key (tidb): table_id=" ++ fmtInt tableID ++ ", unknown tag " ++ hex2 k9
            ++ hex2 k10 ++ suffix)

/-- A column value of an index key: a signed integer or a byte string. -/
inductive ColumnValue where
  | int (v : Int)
  | bytes (b : List Nat)

/-- The serialisation of a column: `0x03 ++ encodeI64(v)` or
`0x01 ++ encodeMemcomparableBytes(b)`. -/
def serialiseColumn : ColumnValue → List Nat
  | ColumnValue.int v => [0x03] ++ encodeI64 v
  | ColumnValue.bytes b => [0x01] ++ encodeMemcomparableBytes b

/-- The concatenation of the serialisations of the columns. -/
def serialiseColumns (cols : List ColumnValue) : List Nat := cols.flatMap serialiseColumn

/-- The entry expected for a column: `int=v`, and for a byte string `str=` with the quoted
text when it decodes cleanly as text, otherwise `bytes=<n bytes>` with its length. -/
def columnEntry (quote : List Nat → String) : ColumnValue → String
  | ColumnValue.int v => "int=" ++ fmtInt v
  | ColumnValue.bytes b =>
    if isValidUTF8 b = some true then "str=" ++ quote b
    else "bytes=<" ++ fmtLen b.length ++ " bytes>"

/-- The integer columns hold `int64` values. -/
def columnInRange : ColumnValue → Prop
  | ColumnValue.int v => isInt64 v
  | ColumnValue.bytes _ => True

/-- The verb `%q` on a string of printable ASCII characters other than the double quote and the
backslash, which `strconv.Quote` copies between double quotes. -/
def quoteAscii (s : List Nat) : String := "\"" ++ String.mk (s.map Char.ofNat) ++ "\""

/-! ## Lemmas: integer transform -/

set_option maxRecDepth 100000 in
theorem xor128_lt (x : Nat) (h : x < 256) :
    x ^^^ 128 = if x < 128 then x + 128 else x - 128 := by
  revert x
  decide

theorem lex_cons_nat (a b : Nat) (l₁ l₂ : List Nat) :
    List.Lex (· < ·) (a :: l₁) (b :: l₂) ↔ a < b ∨ (a = b ∧ List.Lex (· < ·) l₁ l₂) := by
  constructor
  · intro h
    cases h with
    | cons h => exact Or.inr ⟨rfl, h⟩
    | rel h => exact Or.inl h
  · rintro (h | ⟨rfl, h⟩)
    · exact List.Lex.rel h
    · exact List.Lex.cons h

theorem encodeI64_eq (v : Int) (h : isInt64 v) :
    encodeI64 v = putUint64 (v + 9223372036854775808).toNat := by
  unfold isInt64 minInt64 maxInt64 at h
  simp only [encodeI64, putUint64, flipSignBit, toUint64]
  rw [xor128_lt _ (Nat.mod_lt _ (by norm_num))]
  congr 1
  · split <;> omega
  · simp only [List.cons.injEq, and_true]
    refine ⟨?_, ?_, ?_, ?_, ?_, ?_, ?_⟩ <;> omega



theorem putUint64_eq_beBytes (u : Nat) : putUint64 u = beBytes 8 u := by
  simp [putUint64, beBytes]

theorem lt_digit_step (A q₁ q₂ r₁ r₂ : Nat) (h₁ : r₁ < A) (h₂ : r₂ < A) :
    r₁ + A * q₁ < r₂ + A * q₂ ↔ q₁ < q₂ ∨ (q₁ = q₂ ∧ r₁ < r₂) := by
  rcases Nat.lt_trichotomy q₁ q₂ with h | h | h
  · have : A * (q₁ + 1) ≤ A * q₂ := Nat.mul_le_mul_left A h
    have e : A * (q₁ + 1) = A * q₁ + A := by ring
    constructor
    · intro _; exact Or.inl h
    · intro _; omega
  · subst h
    constructor
    · intro h'; exact Or.inr ⟨rfl, by omega⟩
    · rintro (h' | ⟨_, h'⟩) <;> omega
  · have : A * (q₂ + 1) ≤ A * q₁ := Nat.mul_le_mul_left A h
    have e : A * (q₂ + 1) = A * q₂ + A := by ring
    constructor
    · intro _; omega
    · rintro (h' | ⟨h', _⟩) <;> omega

theorem beBytes_lex (k n m : Nat) :
    List.Lex (· < ·) (beBytes k n) (beBytes k m) ↔ n % 256 ^ k < m % 256 ^ k := by
  induction k with
  | zero => simp [beBytes, Nat.mod_one]
  | succ k ih =>
    have hpos : 0 < 256 ^ k := Nat.pow_pos (by norm_num)
    rw [beBytes, beBytes, lex_cons_nat, ih, Nat.mod_pow_succ, Nat.mod_pow_succ,
      lt_digit_step _ _ _ _ _ (Nat.mod_lt _ hpos) (Nat.mod_lt _ hpos)]

theorem putUint64_lex (n m : Nat) (hn : n < 18446744073709551616) (hm : m < 18446744073709551616) :
    List.Lex (· < ·) (putUint64 n) (putUint64 m) ↔ n < m := by
  rw [putUint64_eq_beBytes, putUint64_eq_beBytes, beBytes_lex]
  have e : (256 : Nat) ^ 8 = 18446744073709551616 := by norm_num
  rw [e, Nat.mod_eq_of_lt hn, Nat.mod_eq_of_lt hm]

theorem bigEndianUint64_putUint64 (u : Nat) (hu : u < 18446744073709551616) :
    bigEndianUint64 (putUint64 u) = u := by
  simp only [bigEndianUint64, putUint64, List.take, List.foldl]
  omega

theorem flipSignBit_flipSignBit_putUint64 (u : Nat) :
    flipSignBit (flipSignBit (putUint64 u)) = putUint64 u := by
  simp only [putUint64, flipSignBit, Nat.xor_cancel_right]

theorem decodeI64_flipSignBit_putUint64 (u : Nat) (hu : u < 18446744073709551616) :
    decodeI64 (flipSignBit (putUint64 u)) = some (wrapInt64 u) := by
  have h8 : flipSignBit (goCopy (List.replicate 8 0) (flipSignBit (putUint64 u))) = putUint64 u := by
    simp [putUint64, flipSignBit, goCopy, Nat.xor_cancel_right]
  have hs : slice (flipSignBit (putUint64 u)) 0 8 = some (flipSignBit (putUint64 u)) := by
    simp [putUint64, flipSignBit, slice]
  simp only [decodeI64, hs, Option.bind_eq_bind, Option.some_bind, h8,
    bigEndianUint64_putUint64 u hu]

/-! ## Lemmas: chunked codec -/

theorem chunkForm_short (s : List Nat) (h : s.length < 8) :
    chunkForm s = s ++ List.replicate (8 - s.length) 0 ++ [0xf7 + s.length] := by
  have h0 : s.length / 8 = 0 := by omega
  have h1 : s.length % 8 = s.length := by omega
  simp [chunkForm, chunkLayout, h0, h1]

theorem chunkForm_long (s : List Nat) (h : 8 ≤ s.length) :
    chunkForm s = s.take 8 ++ [0xff] ++ chunkForm (s.drop 8) := by
  have h0 : s.length / 8 = (s.length - 8) / 8 + 1 := by omega
  have h1 : s.length % 8 = (s.length - 8) % 8 := by omega
  have h2 : 8 * ((s.length - 8) / 8 + 1) = 8 + 8 * ((s.length - 8) / 8) := by ring
  have h3 : ∀ i, 8 * (i + 1) = 8 + 8 * i := fun i => by ring
  simp only [chunkForm, chunkLayout, h0, h1, h2, List.length_drop, List.drop_drop,
    List.append_assoc, List.range_succ_eq_map, List.flatMap_cons, List.flatMap_map,
    Nat.succ_eq_add_one, h3, Nat.mul_zero, List.drop_zero]

theorem encodeMemcomparableBytesLoop_eq (data : List Nat) :
    ∀ (fuel : Nat) (encoded : List Nat) (pos : Nat), pos ≤ data.length →
      (data.length - pos) / 8 < fuel →
      encodeMemcomparableBytesLoop data fuel encoded pos
        = some (encoded ++ chunkForm (data.drop pos)) := by
  intro fuel
  induction fuel with
  | zero => intro _ _ _ h; omega
  | succ fuel ih =>
    intro encoded pos hpos hfuel
    unfold encodeMemcomparableBytesLoop
    by_cases hrem : 8 ≤ data.length - pos
    · have hge : ((data.length : Int) - (pos : Int)) ≥ 8 := by omega
      simp only [hge, if_true]
      have hlen : 8 ≤ (data.drop pos).length := by rw [List.length_drop]; exact hrem
      rw [ih (encoded ++ (data.drop pos).take 8 ++ [0xff]) (pos + 8) (by omega) (by omega),
        chunkForm_long (data.drop pos) hlen, List.drop_drop]
      simp only [List.append_assoc]
    · have hge : ¬ ((data.length : Int) - (pos : Int)) ≥ 8 := by omega
      simp only [hge, if_false]
      have hlen : (data.drop pos).length < 8 := by rw [List.length_drop]; omega
      rw [chunkForm_short (data.drop pos) hlen]
      have hm : (0xff + 256 - ((8 - ((data.length : Int) - (pos : Int))) % 256).toNat) % 256
          = 0xf7 + (data.length - pos) := by omega
      simp only [hm, goCopy, List.length_replicate, List.length_drop]
      rw [List.take_of_length_le (by rw [List.length_drop]; omega), List.drop_replicate]
      simp only [List.append_assoc]

theorem encodeMemcomparableBytes_eq_chunkForm (data : List Nat) :
    encodeMemcomparableBytes data = chunkForm data := by
  rw [encodeMemcomparableBytes, encodeMemcomparableBytesLoop_eq data _ _ 0 (by omega) (by omega)]
  simp


theorem decodeMemcomparableBytesLoop_stop (X : List Nat) (fuel : Nat) (decoded : List Nat)
    (pos : Nat) (h : X.length < pos + 9) :
    decodeMemcomparableBytesLoop X (fuel + 1) decoded pos = some (decoded, pos) := by
  unfold decodeMemcomparableBytesLoop
  simp [h]

theorem decodeMemcomparableBytesLoop_step (X : List Nat) (fuel : Nat) (decoded : List Nat)
    (pos : Nat) (h : pos + 9 ≤ X.length) :
    decodeMemcomparableBytesLoop X (fuel + 1) decoded pos =
      if (X[pos + 8]?).getD 0 = 0xff then
        decodeMemcomparableBytesLoop X fuel (decoded ++ (X.drop pos).take 8) (pos + 9)
      else if 0xff - (X[pos + 8]?).getD 0 ≤ 8 then
        some (decoded ++ ((X.drop pos).take 8).take (8 - (0xff - (X[pos + 8]?).getD 0)), pos + 9)
      else some (decoded, pos + 9) := by
  have hlt : pos + 8 < X.length := by omega
  have hnot : ¬ (pos + 9 > X.length) := by omega
  have hs : slice X pos (pos + 8) = some ((X.drop pos).take 8) := by
    unfold slice
    rw [if_pos ⟨by omega, by omega⟩]
    simp
  have hm : X[pos + 8]? = some (X[pos + 8]) := List.getElem?_eq_getElem hlt
  have hg : ∀ k, k ≤ 8 → slice ((X.drop pos).take 8) 0 k = some (((X.drop pos).take 8).take k) := by
    intro k hk
    unfold slice
    rw [if_pos ⟨by omega, by rw [List.length_take, List.length_drop]; omega⟩]
    simp
  rw [decodeMemcomparableBytesLoop]
  simp only [hnot, if_false, hs, hm, Option.bind_eq_bind, Option.some_bind, Option.getD_some]
  split
  · rfl
  · split
    · rw [hg _ (by omega)]
      rfl
    · rfl


theorem decodeMemcomparableBytesLoop_acc (X : List Nat) :
    ∀ (fuel : Nat) (decoded : List Nat) (pos : Nat),
      decodeMemcomparableBytesLoop X fuel decoded pos
        = (decodeMemcomparableBytesLoop X fuel [] pos).map (fun r => (decoded ++ r.1, r.2)) := by
  intro fuel
  induction fuel with
  | zero => intro _ _; rfl
  | succ fuel ih =>
    intro decoded pos
    by_cases h : pos + 9 ≤ X.length
    · rw [decodeMemcomparableBytesLoop_step X fuel decoded pos h,
        decodeMemcomparableBytesLoop_step X fuel [] pos h]
      split
      · rw [ih (decoded ++ _), ih ([] ++ _), Option.map_map]
        congr 1
        funext r
        simp
      · split <;> simp
    · rw [decodeMemcomparableBytesLoop_stop X fuel decoded pos (by omega),
        decodeMemcomparableBytesLoop_stop X fuel [] pos (by omega)]
      simp

theorem decodeMemcomparableBytesLoop_shift (pre rest : List Nat) :
    ∀ (fuel : Nat) (decoded : List Nat) (pos : Nat),
      decodeMemcomparableBytesLoop (pre ++ rest) fuel decoded (pre.length + pos)
        = (decodeMemcomparableBytesLoop rest fuel decoded pos).map
            (fun r => (r.1, pre.length + r.2)) := by
  intro fuel
  induction fuel with
  | zero => intro _ _; rfl
  | succ fuel ih =>
    intro decoded pos
    have hd : (pre ++ rest).drop (pre.length + pos) = rest.drop pos := by
      rw [← List.drop_drop, List.drop_left]
    have hm : (pre ++ rest)[pre.length + pos + 8]? = rest[pos + 8]? := by
      rw [List.getElem?_append_right (by omega)]
      congr 1
      omega
    by_cases h : pos + 9 ≤ rest.length
    · rw [decodeMemcomparableBytesLoop_step (pre ++ rest) fuel decoded (pre.length + pos)
          (by rw [List.length_append]; omega),
        decodeMemcomparableBytesLoop_step rest fuel decoded pos h, hd, hm]
      split
      · rw [Nat.add_assoc, ih]
      · split <;> simp [Nat.add_assoc]
    · rw [decodeMemcomparableBytesLoop_stop (pre ++ rest) fuel decoded (pre.length + pos)
          (by rw [List.length_append]; omega),
        decodeMemcomparableBytesLoop_stop rest fuel decoded pos (by omega)]
      simp

theorem decodeMemcomparableBytesLoop_fuel_mono (X : List Nat) :
    ∀ (fuel : Nat) (decoded : List Nat) (pos : Nat) (r : List Nat × Nat),
      decodeMemcomparableBytesLoop X fuel decoded pos = some r →
      ∀ extra, decodeMemcomparableBytesLoop X (fuel + extra) decoded pos = some r := by
  intro fuel
  induction fuel with
  | zero => intro _ _ _ h; simp [decodeMemcomparableBytesLoop] at h
  | succ fuel ih =>
    intro decoded pos r h extra
    have e : fuel + 1 + extra = (fuel + extra) + 1 := by omega
    rw [e]
    by_cases hp : pos + 9 ≤ X.length
    · rw [decodeMemcomparableBytesLoop_step X _ decoded pos hp] at h ⊢
      split
      · rename_i hm
        rw [if_pos hm] at h
        exact ih _ _ _ h extra
      · rename_i hm
        rw [if_neg hm] at h
        exact h
    · rw [decodeMemcomparableBytesLoop_stop X _ decoded pos (by omega)] at h ⊢
      exact h

/-- One full group (marker `0xFF`) in front of the input. -/
theorem decodeMemcomparableBytesLoop_full (g rest : List Nat) (hg : g.length = 8) (fuel : Nat) :
    decodeMemcomparableBytesLoop (g ++ [0xff] ++ rest) (fuel + 1) [] 0
      = (decodeMemcomparableBytesLoop rest fuel [] 0).map (fun r => (g ++ r.1, 9 + r.2)) := by
  have hlen : (g ++ [0xff]).length = 9 := by simp [hg]
  rw [decodeMemcomparableBytesLoop_step _ fuel [] 0 (by simp [hg]; omega)]
  have hm : (g ++ [0xff] ++ rest)[0 + 8]? = some 0xff := by
    rw [List.append_assoc, List.getElem?_append_right (by omega)]
    simp [hg]
  have ht : ((g ++ [0xff] ++ rest).drop 0).take 8 = g := by
    rw [List.drop_zero, List.append_assoc, List.take_append_of_le_length (by omega),
      List.take_of_length_le (by omega)]
  rw [hm, ht]
  simp only [Option.getD_some, if_true, List.nil_append]
  have h9 : 0 + 9 = (g ++ [0xff]).length + 0 := by omega
  rw [h9, decodeMemcomparableBytesLoop_shift, decodeMemcomparableBytesLoop_acc, Option.map_map,
    hlen]
  rfl

/-- A terminal group (marker other than `0xFF`) in front of the input. -/
theorem decodeMemcomparableBytesLoop_last (g rest : List Nat) (m : Nat) (hg : g.length = 8)
    (hm : m ≠ 0xff) (fuel : Nat) :
    decodeMemcomparableBytesLoop (g ++ [m] ++ rest) (fuel + 1) [] 0
      = some (if 0xff - m ≤ 8 then g.take (8 - (0xff - m)) else [], 9) := by
  rw [decodeMemcomparableBytesLoop_step _ fuel [] 0 (by simp [hg]; omega)]
  have hm' : (g ++ [m] ++ rest)[0 + 8]? = some m := by
    rw [List.append_assoc, List.getElem?_append_right (by omega)]
    simp [hg]
  have ht : ((g ++ [m] ++ rest).drop 0).take 8 = g := by
    rw [List.drop_zero, List.append_assoc, List.take_append_of_le_length (by omega),
      List.take_of_length_le (by omega)]
  rw [hm', ht]
  simp only [Option.getD_some, if_neg hm, List.nil_append]
  split <;> rfl


theorem decodeMemcomparableBytesLoop_chunkForm :
    ∀ (n : Nat) (s : List Nat), s.length = n → ∀ (t : List Nat) (fuel : Nat),
      s.length / 8 < fuel →
      decodeMemcomparableBytesLoop (chunkForm s ++ t) fuel [] 0
        = some (s, 9 * (s.length / 8 + 1)) := by
  intro n
  induction n using Nat.strong_induction_on with
  | _ n ih =>
    intro s hs t fuel hfuel
    obtain ⟨f, rfl⟩ : ∃ f, fuel = f + 1 := ⟨fuel - 1, by omega⟩
    by_cases h8 : s.length < 8
    · rw [chunkForm_short s h8,
        decodeMemcomparableBytesLoop_last _ t _ (by simp; omega) (by omega) f]
      have h0 : s.length / 8 = 0 := by omega
      have e : 8 - (0xff - (0xf7 + s.length)) = s.length := by omega
      rw [if_pos (by omega), e, List.take_left, h0]
    · have hl : 8 ≤ s.length := by omega
      rw [chunkForm_long s hl, List.append_assoc,
        decodeMemcomparableBytesLoop_full _ _ (by simp; omega) f,
        ih (s.length - 8) (by omega) (s.drop 8) (by simp) t f (by simp; omega)]
      simp only [Option.map_some', List.take_append_drop, List.length_drop]
      congr 2
      omega

theorem chunkForm_length :
    ∀ (n : Nat) (s : List Nat), s.length = n → (chunkForm s).length = 9 * (s.length / 8 + 1) := by
  intro n
  induction n using Nat.strong_induction_on with
  | _ n ih =>
    intro s hs
    by_cases h8 : s.length < 8
    · rw [chunkForm_short s h8]
      simp only [List.length_append, List.length_replicate, List.length_singleton]
      omega
    · have hl : 8 ≤ s.length := by omega
      rw [chunkForm_long s hl]
      simp only [List.length_append, List.length_take, List.length_singleton,
        ih (s.length - 8) (by omega) (s.drop 8) (by simp), List.length_drop]
      omega

theorem decodeMemcomparableBytes_chunkForm_append (s t : List Nat) :
    decodeMemcomparableBytes (chunkForm s ++ t) = some (s, 9 * (s.length / 8 + 1)) := by
  have h := decodeMemcomparableBytesLoop_chunkForm s.length s rfl t (s.length / 8 + 1) (by omega)
  have hf := decodeMemcomparableBytesLoop_fuel_mono _ _ _ _ _ h
    ((chunkForm s ++ t).length / 9 + 1 - (s.length / 8 + 1))
  have hlen := chunkForm_length s.length s rfl
  have e : s.length / 8 + 1 + ((chunkForm s ++ t).length / 9 + 1 - (s.length / 8 + 1))
      = (chunkForm s ++ t).length / 9 + 1 := by
    rw [List.length_append, hlen]
    omega
  rw [e] at hf
  exact hf


theorem padTo_length (k : Nat) (s : List Nat) : (padTo k s).length = k := by
  simp [padTo]

theorem padTo_cons (k a : Nat) (l : List Nat) : padTo (k + 1) (a :: l) = a :: padTo k l := by
  simp only [padTo, List.cons_append, List.take_succ_cons, List.replicate_succ']
  rw [← List.append_assoc, List.take_append_of_le_length (by simp)]

theorem padTo_nil (k : Nat) : padTo k [] = List.replicate k 0 := by
  simp [padTo]

theorem chunkForm_unfold (s : List Nat) :
    chunkForm s = padTo 8 s ++ [0xf7 + min s.length 8]
      ++ (if 8 ≤ s.length then chunkForm (s.drop 8) else []) := by
  by_cases h : 8 ≤ s.length
  · rw [chunkForm_long s h, if_pos h, padTo, List.take_append_of_le_length h,
      Nat.min_eq_right h]
  · rw [chunkForm_short s (by omega), if_neg h, padTo, List.take_append_eq_append_take,
      List.take_of_length_le (by omega), List.take_replicate, Nat.min_eq_left (by omega),
      Nat.min_eq_left (by omega), List.append_nil]

theorem replicate_zero_lex_or_eq : ∀ (l : List Nat),
    List.Lex (· < ·) (List.replicate l.length 0) l ∨ List.replicate l.length 0 = l := by
  intro l
  induction l with
  | nil => exact Or.inr rfl
  | cons a l ih =>
    rcases Nat.eq_zero_or_pos a with h | h
    · subst h
      rcases ih with ih | ih
      · exact Or.inl (List.Lex.cons ih)
      · right
        rw [List.length_cons, List.replicate_succ, ih]
    · exact Or.inl (List.Lex.rel h)

theorem lex_append_of_length_eq {a₁ a₂ : List Nat} (x y : List Nat)
    (h : List.Lex (· < ·) a₁ a₂) (hl : a₁.length = a₂.length) :
    List.Lex (· < ·) (a₁ ++ x) (a₂ ++ y) := by
  induction h with
  | nil => simp at hl
  | cons _ ih => exact List.Lex.cons (ih (by simpa using hl))
  | rel h => exact List.Lex.rel h

theorem padTo_lex (k : Nat) : ∀ (s₁ s₂ : List Nat), List.Lex (· < ·) s₁ s₂ →
    List.Lex (· < ·) (padTo k s₁) (padTo k s₂) ∨
      (padTo k s₁ = padTo k s₂ ∧
        (min s₁.length k < min s₂.length k ∨
          (k ≤ s₁.length ∧ k ≤ s₂.length ∧ List.Lex (· < ·) (s₁.drop k) (s₂.drop k)))) := by
  induction k with
  | zero =>
    intro s₁ s₂ h
    right
    exact ⟨by simp [padTo], Or.inr ⟨Nat.zero_le _, Nat.zero_le _, h⟩⟩
  | succ k ih =>
    intro s₁ s₂ h
    cases h with
    | @nil a l =>
      have hz := replicate_zero_lex_or_eq (padTo (k + 1) (a :: l))
      rw [padTo_length] at hz
      rw [padTo_nil]
      rcases hz with hz | hz
      · exact Or.inl hz
      · exact Or.inr ⟨hz, Or.inl (by simp)⟩
    | @cons a l₁ l₂ h =>
      rw [padTo_cons, padTo_cons]
      rcases ih l₁ l₂ h with h' | ⟨he, h'⟩
      · exact Or.inl (List.Lex.cons h')
      · right
        refine ⟨by rw [he], ?_⟩
        rcases h' with h' | ⟨h1, h2, h3⟩
        · left
          simp only [List.length_cons]
          omega
        · right
          exact ⟨by simpa using h1, by simpa using h2, by simpa using h3⟩
    | rel h =>
      rw [padTo_cons, padTo_cons]
      exact Or.inl (List.Lex.rel h)

theorem chunkForm_lex_mono : ∀ (n : Nat) (s₁ s₂ : List Nat), s₁.length = n →
    List.Lex (· < ·) s₁ s₂ → List.Lex (· < ·) (chunkForm s₁) (chunkForm s₂) := by
  intro n
  induction n using Nat.strong_induction_on with
  | _ n ih =>
    intro s₁ s₂ hn h
    rw [chunkForm_unfold s₁, chunkForm_unfold s₂, List.append_assoc, List.append_assoc]
    rcases padTo_lex 8 s₁ s₂ h with h' | ⟨he, h' | ⟨h1, h2, h3⟩⟩
    · exact lex_append_of_length_eq _ _ h' (by rw [padTo_length, padTo_length])
    · rw [he]
      apply List.Lex.append_left
      exact List.Lex.rel (by omega)
    · rw [he, if_pos h1, if_pos h2, Nat.min_eq_right h1, Nat.min_eq_right h2]
      apply List.Lex.append_left
      apply List.Lex.cons
      exact ih (s₁.length - 8) (by omega) _ _ (by simp) h3

theorem chunkForm_lex_iff (s₁ s₂ : List Nat) :
    List.Lex (· < ·) s₁ s₂ ↔ List.Lex (· < ·) (chunkForm s₁) (chunkForm s₂) := by
  constructor
  · exact chunkForm_lex_mono _ s₁ s₂ rfl
  · intro h
    rcases trichotomous_of (List.Lex (· < · : Nat → Nat → Prop)) s₁ s₂ with h' | h' | h'
    · exact h'
    · subst h'
      exact absurd h (irrefl_of (List.Lex (· < · : Nat → Nat → Prop)) _)
    · exact absurd h (asymm_of (List.Lex (· < · : Nat → Nat → Prop))
        (chunkForm_lex_mono _ s₂ s₁ rfl h'))

theorem encodeI64_length (v : Int) : (encodeI64 v).length = 8 := by
  simp [encodeI64, putUint64, flipSignBit]

theorem slice_append_mid (a b c : List Nat) :
    slice (a ++ b ++ c) a.length (a.length + b.length) = some b := by
  unfold slice
  rw [if_pos ⟨by omega, by simp only [List.length_append]; omega⟩]
  simp [List.append_assoc]

theorem decodeI64_encodeI64 (v : Int) (hv : isInt64 v) : decodeI64 (encodeI64 v) = some v := by
  unfold isInt64 minInt64 maxInt64 at hv
  rw [encodeI64, decodeI64_flipSignBit_putUint64]
  · simp only [wrapInt64, toUint64, Option.some.injEq]
    omega
  · simp only [toUint64]
    omega

theorem encodeI64_lex_iff (a b : Int) (ha : isInt64 a) (hb : isInt64 b) :
    a < b ↔ List.Lex (· < ·) (encodeI64 a) (encodeI64 b) := by
  rw [encodeI64_eq a ha, encodeI64_eq b hb, putUint64_lex]
  · unfold isInt64 minInt64 maxInt64 at ha hb
    omega
  · unfold isInt64 minInt64 maxInt64 at ha
    omega
  · unfold isInt64 minInt64 maxInt64 at hb
    omega

theorem lex_of_isPrefix_ne (s₁ s₂ : List Nat) (hp : s₁ <+: s₂) (hne : s₁ ≠ s₂) :
    List.Lex (· < ·) s₁ s₂ := by
  obtain ⟨t, rfl⟩ := hp
  cases t with
  | nil => simp at hne
  | cons a t =>
    have h := List.Lex.append_left (· < · : Nat → Nat → Prop)
      (List.Lex.nil : List.Lex (· < ·) [] (a :: t)) s₁
    simpa using h

theorem chunkForm_getLast (s : List Nat) :
    (chunkForm s).getLast? = some (0xf7 + s.length % 8) := by
  simp [chunkForm, chunkLayout]

/-- The logical key of table `t` with any continuation sorts below the bare logical key of
table `t + 1`, when `t + 1` does not overflow. -/
theorem logicalKey_lex_next (t : Int) (ht : isInt64 t) (hmax : t < maxInt64) (rest : List Nat) :
    List.Lex (· < ·) ([116] ++ encodeI64 t ++ rest) ([116] ++ encodeI64 (wrapInt64 (t + 1))) := by
  have hw : wrapInt64 (t + 1) = t + 1 := by
    unfold isInt64 minInt64 maxInt64 at *
    unfold wrapInt64
    omega
  have ht1 : isInt64 (t + 1) := by
    unfold isInt64 minInt64 maxInt64 at *
    omega
  have h := (encodeI64_lex_iff t (t + 1) ht ht1).mp (by omega)
  have h2 := lex_append_of_length_eq rest [] h (by rw [encodeI64_length, encodeI64_length])
  rw [hw, List.append_assoc]
  rw [List.append_nil] at h2
  exact List.Lex.append_left _ h2 [116]

/-- The scan end key `encodeTablePrefix(tid + 1)` is above every raw key of table `tid`
whenever `tid` is below the largest `int64`. -/
theorem rawKey_lt_rawEndKey (t : Int) (ht : isInt64 t) (hmax : t < maxInt64) (rest : List Nat) :
    lexLt (encodeMemcomparableBytes ([116] ++ encodeI64 t ++ rest)) (rawEndKey t) := by
  rw [lexLt, rawEndKey, encodeTablePrefix, encodeMemcomparableBytes_eq_chunkForm,
    encodeMemcomparableBytes_eq_chunkForm]
  exact chunkForm_lex_mono _ _ _ rfl (logicalKey_lex_next t ht hmax rest)

theorem decodeLogicalKeyDetailed_tagged (quote : List Nat → String) (t : Int)
    (ht : isInt64 t) (tag : List Nat) (htag : tag = [95, 114] ∨ tag = [95, 105]) :
    decodeLogicalKeyDetailed quote ([116] ++ encodeI64 t ++ tag)
      = some ("key (tidb): table_id=" ++ fmtInt t
          ++ (if tag = [95, 114] then ", record (row_id truncated)"
              else ", index (index_id truncated)")) := by
  have htl : tag.length = 2 := by rcases htag with h | h <;> rw [h] <;> rfl
  have hlen : ([116] ++ encodeI64 t ++ tag).length = 11 := by
    simp [encodeI64_length, htl]
  have h0 : ([116] ++ encodeI64 t ++ tag)[0]? = some 116 := by simp
  have h1 : slice ([116] ++ encodeI64 t ++ tag) 1 9 = some (encodeI64 t) := by
    have h := slice_append_mid [116] (encodeI64 t) tag
    simpa [encodeI64_length, List.append_assoc] using h
  have h2 : slice ([116] ++ encodeI64 t ++ tag) 9 11 = some tag := by
    have h := slice_append_mid ([116] ++ encodeI64 t) tag []
    simpa [encodeI64_length, List.append_assoc, htl] using h
  unfold decodeLogicalKeyDetailed
  simp only [hlen, h0, h1, h2, Option.bind_eq_bind, Option.some_bind,
    decodeI64_encodeI64 t ht]
  rcases htag with h | h <;> subst h <;> simp

/-! ## Lemmas: decoders, parsers and the handle heuristic -/

theorem decodeIndexColumnsBytesLoop_eq (data : List Nat) :
    ∀ (fuel : Nat) (decoded : List Nat) (pos : Nat),
      decodeIndexColumnsBytesLoop data fuel decoded pos
        = decodeMemcomparableBytesLoop data fuel decoded pos := by
  intro fuel
  induction fuel with
  | zero => intro _ _; rfl
  | succ fuel ih =>
    intro decoded pos
    simp only [decodeIndexColumnsBytesLoop, decodeMemcomparableBytesLoop, ih]

theorem decodeMemcomparableBytesLoop_total (X : List Nat) :
    ∀ (fuel : Nat) (decoded : List Nat) (pos : Nat), (X.length - pos) / 9 < fuel →
      ∃ r, decodeMemcomparableBytesLoop X fuel decoded pos = some r
        ∧ pos ≤ r.2 ∧ r.2 ≤ max pos X.length ∧ (r.2 - pos) % 9 = 0
        ∧ r.1.length ≤ decoded.length + 8 * ((r.2 - pos) / 9) := by
  intro fuel
  induction fuel with
  | zero => intro _ _ h; omega
  | succ fuel ih =>
    intro decoded pos hfuel
    by_cases hp : pos + 9 ≤ X.length
    · rw [decodeMemcomparableBytesLoop_step X fuel decoded pos hp]
      have hg : ((X.drop pos).take 8).length = 8 := by
        rw [List.length_take, List.length_drop]; omega
      split
      · obtain ⟨r, hr, h1, h2, h3, h4⟩ := ih (decoded ++ (X.drop pos).take 8) (pos + 9) (by omega)
        refine ⟨r, hr, by omega, by omega, by omega, ?_⟩
        rw [List.length_append, hg] at h4
        omega
      · split
        · refine ⟨_, rfl, by simp, by simp; omega, by simp, ?_⟩
          simp only [List.length_append, List.length_take, hg]
          omega
        · exact ⟨_, rfl, by simp, by simp; omega, by simp, by simp⟩
    · rw [decodeMemcomparableBytesLoop_stop X fuel decoded pos (by omega)]
      exact ⟨_, rfl, by simp, by simp, by simp, by simp⟩

theorem decodeMemcomparableBytesLoop_fuel_eq (X : List Nat) (fuel₁ fuel₂ : Nat)
    (decoded : List Nat) (pos : Nat) (h₁ : (X.length - pos) / 9 < fuel₁)
    (h₂ : (X.length - pos) / 9 < fuel₂) :
    decodeMemcomparableBytesLoop X fuel₁ decoded pos
      = decodeMemcomparableBytesLoop X fuel₂ decoded pos := by
  obtain ⟨r, hr, _⟩ := decodeMemcomparableBytesLoop_total X ((X.length - pos) / 9 + 1) decoded pos
    (by omega)
  have e₁ := decodeMemcomparableBytesLoop_fuel_mono X _ decoded pos r hr
    (fuel₁ - ((X.length - pos) / 9 + 1))
  have e₂ := decodeMemcomparableBytesLoop_fuel_mono X _ decoded pos r hr
    (fuel₂ - ((X.length - pos) / 9 + 1))
  have a₁ : (X.length - pos) / 9 + 1 + (fuel₁ - ((X.length - pos) / 9 + 1)) = fuel₁ := by omega
  have a₂ : (X.length - pos) / 9 + 1 + (fuel₂ - ((X.length - pos) / 9 + 1)) = fuel₂ := by omega
  rw [a₁] at e₁
  rw [a₂] at e₂
  rw [e₁, e₂]

/-- The loop started at `pos` on `data` is the decoder run on `data[pos:]`. -/
theorem decodeIndexColumnsBytesLoop_eq_decode (data : List Nat) (pos : Nat)
    (hpos : pos ≤ data.length) :
    decodeIndexColumnsBytesLoop data (data.length / 9 + 1) [] pos
      = (decodeMemcomparableBytes (data.drop pos)).map (fun r => (r.1, pos + r.2)) := by
  rw [decodeIndexColumnsBytesLoop_eq, decodeMemcomparableBytes]
  have hsplit : data = data.take pos ++ data.drop pos := (List.take_append_drop pos data).symm
  have hl : (data.take pos).length = pos := by rw [List.length_take]; omega
  have h := decodeMemcomparableBytesLoop_shift (data.take pos) (data.drop pos)
    (data.length / 9 + 1) [] 0
  rw [← hsplit, hl] at h
  simp only [Nat.add_zero] at h
  rw [h, decodeMemcomparableBytesLoop_fuel_eq (data.drop pos) (data.length / 9 + 1)
    ((data.drop pos).length / 9 + 1) [] 0 (by rw [List.length_drop]; omega) (by omega)]

theorem fullGroups_length (gs : List (List Nat)) (hgs : ∀ g ∈ gs, g.length = 8) :
    (gs.flatMap (fun g => g ++ [0xff])).length = 9 * gs.length
      ∧ (gs.flatMap id).length = 8 * gs.length := by
  induction gs with
  | nil => simp
  | cons g gs ih =>
    have hg := hgs g (List.mem_cons_self g gs)
    obtain ⟨h1, h2⟩ := ih (fun g' hg' => hgs g' (List.mem_cons_of_mem g hg'))
    simp only [List.flatMap_cons, List.length_append, List.length_cons, List.length_nil, h1, h2,
      hg, id]
    constructor <;> omega

theorem decodeMemcomparableBytesLoop_malformed (gs : List (List Nat)) (bad : List Nat) (m : Nat)
    (rest : List Nat) (hgs : ∀ g ∈ gs, g.length = 8) (hbad : bad.length = 8)
    (hm : 0xff - m > 8) :
    ∀ fuel, gs.length < fuel →
      decodeMemcomparableBytesLoop (gs.flatMap (fun g => g ++ [0xff]) ++ bad ++ [m] ++ rest)
        fuel [] 0 = some (gs.flatMap id, 9 * (gs.length + 1)) := by
  induction gs with
  | nil =>
    intro fuel hfuel
    obtain ⟨f, rfl⟩ : ∃ f, fuel = f + 1 := ⟨fuel - 1, by omega⟩
    rw [List.flatMap_nil, List.nil_append,
      decodeMemcomparableBytesLoop_last bad rest m hbad (by omega) f, if_neg (by omega)]
    rfl
  | cons g gs ih =>
    intro fuel hfuel
    obtain ⟨f, rfl⟩ : ∃ f, fuel = f + 1 := ⟨fuel - 1, by omega⟩
    have hg := hgs g (List.mem_cons_self g gs)
    have e : (g :: gs).flatMap (fun g => g ++ [0xff]) ++ bad ++ [m] ++ rest
        = g ++ [0xff] ++ (gs.flatMap (fun g => g ++ [0xff]) ++ bad ++ [m] ++ rest) := by
      simp only [List.flatMap_cons, List.append_assoc]
    rw [e, decodeMemcomparableBytesLoop_full g _ hg f,
      ih (fun g' hg' => hgs g' (List.mem_cons_of_mem g hg')) f
        (by simp only [List.length_cons] at hfuel; omega)]
    simp only [Option.map_some', List.flatMap_cons, id, List.length_cons]
    congr 2
    omega

theorem decodeMemcomparableBytes_bounds (encoded : List Nat) :
    ∃ decoded consumed, decodeMemcomparableBytes encoded = some (decoded, consumed)
      ∧ consumed % 9 = 0 ∧ consumed ≤ encoded.length
      ∧ decoded.length ≤ 8 * (consumed / 9) := by
  obtain ⟨r, hr, _, h2, h3, h4⟩ :=
    decodeMemcomparableBytesLoop_total encoded (encoded.length / 9 + 1) [] 0 (by omega)
  refine ⟨r.1, r.2, hr, by omega, ?_, ?_⟩
  · simpa using h2
  · simpa using h4

theorem decodeRune_width_pos (s : List Nat) : 1 ≤ (decodeRune s).2 := by
  unfold decodeRune
  repeat' split
  all_goals first | (simp; done) | (simp only []; split <;> simp)

theorem isValidUTF8Loop_total : ∀ (fuel : Nat) (s : List Nat), s.length < fuel →
    ∃ b, isValidUTF8Loop fuel s = some b := by
  intro fuel
  induction fuel with
  | zero => intro _ h; omega
  | succ fuel ih =>
    intro s hs
    unfold isValidUTF8Loop
    by_cases h0 : s.length = 0
    · exact ⟨true, by simp [h0]⟩
    · simp only [h0, if_false]
      split
      · exact ⟨false, rfl⟩
      · have hw := decodeRune_width_pos s
        exact ih _ (by rw [List.length_drop]; omega)

theorem isValidUTF8_total (s : List Nat) : ∃ b, isValidUTF8 s = some b :=
  isValidUTF8Loop_total (s.length + 1) s (by omega)

theorem slice_eq_some (data : List Nat) (lo hi : Nat) (h₁ : lo ≤ hi) (h₂ : hi ≤ data.length) :
    slice data lo hi = some ((data.drop lo).take (hi - lo)) := by
  unfold slice
  rw [if_pos ⟨h₁, h₂⟩]

theorem window_length (data : List Nat) (lo hi : Nat) (h₂ : hi ≤ data.length) :
    ((data.drop lo).take (hi - lo)).length = hi - lo := by
  rw [List.length_take, List.length_drop]
  omega

theorem decodeI64_total (w : List Nat) (h : 8 ≤ w.length) : ∃ v, decodeI64 w = some v := by
  unfold decodeI64
  rw [slice_eq_some w 0 8 (by omega) h]
  exact ⟨_, rfl⟩

theorem decodeI64_window_total (data : List Nat) (lo hi : Nat) (h₁ : lo + 8 = hi)
    (h₂ : hi ≤ data.length) : ∃ v, (slice data lo hi).bind decodeI64 = some v := by
  rw [slice_eq_some data lo hi (by omega) h₂, Option.some_bind]
  exact decodeI64_total _ (by rw [window_length data lo hi h₂]; omega)

theorem decodeIndexColumnsBytesLoop_total (data : List Nat) (pos : Nat) :
    ∃ r, decodeIndexColumnsBytesLoop data (data.length / 9 + 1) [] pos = some r
      ∧ pos ≤ r.2 ∧ r.2 ≤ max pos data.length := by
  rw [decodeIndexColumnsBytesLoop_eq]
  obtain ⟨r, hr, h1, h2, _⟩ :=
    decodeMemcomparableBytesLoop_total data (data.length / 9 + 1) [] pos (by omega)
  exact ⟨r, hr, h1, h2⟩

theorem decodeIndexColumnsLoop_total (quote : List Nat → String) (data : List Nat) :
    ∀ (fuel : Nat) (result : List String) (pos : Nat), data.length - pos < fuel →
      ∃ r, decodeIndexColumnsLoop quote data fuel result pos = some r := by
  intro fuel
  induction fuel with
  | zero => intro _ _ h; omega
  | succ fuel ih =>
    intro result pos hfuel
    unfold decodeIndexColumnsLoop
    by_cases hp : pos < data.length
    · rw [if_pos hp, List.getElem?_eq_getElem hp]
      simp only [Option.bind_eq_bind, Option.some_bind]
      by_cases h3 : data[pos] = 0x03
      · rw [if_pos h3]
        by_cases h8 : pos + 1 + 8 ≤ data.length
        · rw [if_pos h8, slice_eq_some data (pos + 1) (pos + 1 + 8) (by omega) h8]
          obtain ⟨v, hv⟩ := decodeI64_total ((data.drop (pos + 1)).take (pos + 1 + 8 - (pos + 1)))
            (by rw [window_length data _ _ h8]; omega)
          simp only [Option.some_bind, hv]
          exact ih _ _ (by omega)
        · rw [if_neg h8]
          exact ⟨_, rfl⟩
      · rw [if_neg h3]
        by_cases h1 : data[pos] = 0x01
        · rw [if_pos h1]
          obtain ⟨r, hr, hr1, hr2⟩ := decodeIndexColumnsBytesLoop_total data (pos + 1)
          obtain ⟨b, hb⟩ := isValidUTF8_total r.1
          simp only [hr, Option.some_bind, hb]
          split
          · exact ih _ _ (by omega)
          · exact ih _ _ (by omega)
        · rw [if_neg h1]
          exact ⟨_, rfl⟩
    · rw [if_neg hp]
      exact ⟨_, rfl⟩

theorem decodeIndexColumns_total (quote : List Nat → String) (data : List Nat) :
    ∃ d, decodeIndexColumns quote data = some d := by
  obtain ⟨r, hr⟩ := decodeIndexColumnsLoop_total quote data (data.length + 1) [] 0 (by omega)
  unfold decodeIndexColumns
  simp only [hr, Option.bind_eq_bind, Option.some_bind]
  split
  · exact ⟨_, rfl⟩
  · exact ⟨_, rfl⟩

theorem probeHandle_eq (val : List Nat) (lo hi : Nat) (c : List (Nat × Int)) (h₁ : lo + 8 = hi)
    (h₂ : hi ≤ val.length) : probeHandle val lo hi lo c = some (c ++ acceptedAt val lo) := by
  obtain ⟨v, hv⟩ := decodeI64_window_total val lo hi h₁ h₂
  have hv' : decodeI64 ((val.drop lo).take 8) = some v := by
    rw [slice_eq_some val lo hi (by omega) h₂, Option.some_bind] at hv
    have e : hi - lo = 8 := by omega
    rw [e] at hv
    exact hv
  unfold probeHandle acceptedAt
  simp only [hv, hv', Option.bind_eq_bind, Option.some_bind]
  split <;> simp

theorem decodeIndexValueCandidates_eq (val : List Nat) :
    decodeIndexValueCandidates val = some (handleCandidatesSpec val) := by
  unfold decodeIndexValueCandidates handleCandidatesSpec handleProbeOffsets
  by_cases h8 : val.length < 8
  · by_cases h0 : val.length = 0
    · simp [h0]
    · have a : ¬ 9 ≤ val.length := by omega
      have b : ¬ 8 ≤ val.length := by omega
      have c : ¬ 17 ≤ val.length := by omega
      simp [h0, h8, a, b, c]
  · have h0 : ¬ val.length = 0 := by omega
    have g8 : val.length ≥ 8 := by omega
    have ht := fun c => probeHandle_eq val (val.length - 8) val.length c (by omega) (by omega)
    by_cases h9 : val.length ≥ 9
    · have h1 := fun c => probeHandle_eq val 1 9 c rfl h9
      by_cases h17 : val.length ≥ 17
      · have h9' := fun c => probeHandle_eq val 9 17 c rfl h17
        simp [h0, h8, g8, h9, h17, h1, ht, h9']
      · simp [h0, h8, g8, h9, h17, h1, ht]
    · have h17 : ¬ val.length ≥ 17 := by omega
      simp [h0, h8, g8, h9, h17, ht]

theorem acceptedAt_range (val : List Nat) (offset : Nat) :
    ∀ c ∈ acceptedAt val offset, c.1 = offset ∧ 0 < c.2 ∧ c.2 < 1000000000 := by
  intro c hc
  unfold acceptedAt at hc
  split at hc
  · split at hc
    · rename_i h
      simp only [List.mem_singleton] at hc
      subst hc
      exact ⟨rfl, h.1, h.2⟩
    · simp at hc
  · simp at hc

theorem decodeTiDBKeyDetailed_eq_describeKey (quote : List Nat → String) (rawKey : List Nat) :
    decodeTiDBKeyDetailed quote rawKey
      = (decodeMemcomparableBytes rawKey).bind (fun kc =>
          describeKey quote kc.1 (mvccSuffix ((rawKey.length : Int) - (kc.2 : Int)))
            " decoded bytes)") := by
  rfl

theorem decodeLogicalKeyDetailed_eq_describeKey (quote : List Nat → String) (key : List Nat) :
    decodeLogicalKeyDetailed quote key = describeKey quote key "" " bytes)" := by
  unfold decodeLogicalKeyDetailed describeKey
  simp only [String.append_empty]

theorem sliceFrom_eq_some (data : List Nat) (lo : Nat) (h : lo ≤ data.length) :
    sliceFrom data lo = some (data.drop lo) := by
  unfold sliceFrom
  rw [if_pos h]

theorem strContains_append_right (a sub b : String) : strContains (a ++ sub ++ b) sub := by
  unfold strContains
  rw [String.data_append, String.data_append]
  exact List.infix_append _ _ _

theorem strContains_append_left (a sub : String) : strContains (a ++ sub) sub := by
  unfold strContains
  rw [String.data_append]
  exact (List.suffix_append _ _).isInfix

theorem strContains_trans {s t u : String} (h₁ : strContains t u) (h₂ : strContains s t) :
    strContains s u := by
  unfold strContains at *
  exact h₁.trans h₂

/-- In the tag-bearing results (key of at least 11 bytes starting with `t`) the description is
returned and contains `suffix`. -/
theorem describeKey_contains_suffix (quote : List Nat → String) (key : List Nat)
    (suffix shortNote : String) (h11 : 11 ≤ key.length) (ht : key[0]? = some 116) :
    ∃ d, describeKey quote key suffix shortNote = some d ∧ strContains d suffix := by
  unfold describeKey
  have h0 : ¬ key.length = 0 := by omega
  have h9 : ¬ key.length < 9 := by omega
  have hlt : ¬ key.length < 11 := by omega
  obtain ⟨t, htab⟩ := decodeI64_window_total key 1 9 rfl (by omega)
  rw [if_neg h0, ht]
  simp only [Option.bind_eq_bind, Option.some_bind, ne_eq, not_true_eq_false, if_false, h9, htab,
    hlt, slice_eq_some key 9 11 (by omega) h11]
  split
  · split
    · rename_i h19
      obtain ⟨r, hr⟩ := decodeI64_window_total key 11 19 rfl h19
      rw [hr, Option.some_bind]
      exact ⟨_, rfl, strContains_append_left _ _⟩
    · exact ⟨_, rfl, strContains_append_left _ _⟩
  · split
    · split
      · rename_i h19
        obtain ⟨r, hr⟩ := decodeI64_window_total key 11 19 rfl h19
        rw [hr, Option.some_bind]
        split
        · obtain ⟨c, hc⟩ := decodeIndexColumns_total quote (key.drop 19)
          rw [sliceFrom_eq_some key 19 (by omega), Option.some_bind, hc, Option.some_bind]
          refine ⟨_, rfl, ?_⟩
          rw [String.append_assoc]
          exact strContains_append_right _ _ _
        · exact ⟨_, rfl, strContains_append_left _ _⟩
      · exact ⟨_, rfl, strContains_append_left _ _⟩
    · rw [List.getElem?_eq_getElem (by omega : 9 < key.length),
        List.getElem?_eq_getElem (by omega : 10 < key.length)]
      exact ⟨_, rfl, strContains_append_left _ _⟩

theorem describeKey_total (quote : List Nat → String) (key : List Nat)
    (suffix shortNote : String) : ∃ d, describeKey quote key suffix shortNote = some d := by
  by_cases h0 : key.length = 0
  · exact ⟨_, by unfold describeKey; rw [if_pos h0]⟩
  obtain ⟨k0, hk0⟩ : ∃ k0, key[0]? = some k0 :=
    ⟨_, List.getElem?_eq_getElem (by omega : 0 < key.length)⟩
  by_cases hk : k0 = 116
  · subst hk
    by_cases h11 : 11 ≤ key.length
    · obtain ⟨d, hd, _⟩ := describeKey_contains_suffix quote key suffix shortNote h11 hk0
      exact ⟨d, hd⟩
    · unfold describeKey
      rw [if_neg h0, hk0]
      simp only [Option.bind_eq_bind, Option.some_bind]
      rw [if_neg (not_not.mpr rfl)]
      by_cases h9 : key.length < 9
      · rw [if_pos h9]
        exact ⟨_, rfl⟩
      · obtain ⟨t, htab⟩ := decodeI64_window_total key 1 9 rfl (by omega)
        rw [if_neg h9, htab, Option.some_bind, if_pos (by omega)]
        exact ⟨_, rfl⟩
  · unfold describeKey
    rw [if_neg h0, hk0]
    simp only [Option.bind_eq_bind, Option.some_bind]
    rw [if_pos hk]
    exact ⟨_, rfl⟩

/-- The wording of the too-short result matters only for keys of 1 to 8 bytes starting with
`t`. -/
theorem describeKey_shortNote (quote : List Nat → String) (key : List Nat)
    (suffix n₁ n₂ : String) (h : key = [] ∨ key[0]? ≠ some 116 ∨ 9 ≤ key.length) :
    describeKey quote key suffix n₁ = describeKey quote key suffix n₂ := by
  unfold describeKey
  by_cases h0 : key.length = 0
  · rw [if_pos h0, if_pos h0]
  rw [if_neg h0, if_neg h0]
  obtain ⟨k0, hk0⟩ : ∃ k0, key[0]? = some k0 :=
    ⟨_, List.getElem?_eq_getElem (by omega : 0 < key.length)⟩
  rw [hk0]
  simp only [Option.bind_eq_bind, Option.some_bind]
  by_cases hk : k0 ≠ 116
  · rw [if_pos hk, if_pos hk]
  rw [if_neg hk, if_neg hk]
  have h9 : ¬ key.length < 9 := by
    rcases h with h | h | h
    · subst h; simp at h0
    · rw [hk0] at h
      simp only [ne_eq, Option.some.injEq] at h
      exact absurd h hk
    · omega
  rw [if_neg h9, if_neg h9]

theorem isIndexKeyTest_total (k : List Nat) : ∃ b, isIndexKeyTest k = some b := by
  unfold isIndexKeyTest
  by_cases h : k.length ≥ 11
  · rw [if_pos h, List.getElem?_eq_getElem (by omega : 0 < k.length),
      slice_eq_some k 9 11 (by omega) h]
    simp only [Option.bind_eq_bind, Option.some_bind]
    by_cases h0 : k[0] = 116
    · rw [if_pos h0]; exact ⟨_, rfl⟩
    · rw [if_neg h0]; exact ⟨_, rfl⟩
  · rw [if_neg h]; exact ⟨_, rfl⟩

theorem isIndexKey_total (key : List Nat) (rawMode : Bool) :
    ∃ b, isIndexKey key rawMode = some b := by
  unfold isIndexKey
  cases rawMode with
  | true =>
    obtain ⟨decoded, consumed, h, _⟩ := decodeMemcomparableBytes_bounds key
    simp only [if_true, h, Option.bind_eq_bind, Option.some_bind]
    exact isIndexKeyTest_total decoded
  | false =>
    simp only [Bool.false_eq_true, if_false]
    exact isIndexKeyTest_total key

theorem decodeLogicalKeyDetailed_total (quote : List Nat → String) (key : List Nat) :
    ∃ d, decodeLogicalKeyDetailed quote key = some d := by
  rw [decodeLogicalKeyDetailed_eq_describeKey]
  exact describeKey_total quote key _ _

theorem decodeTiDBKeyDetailed_total (quote : List Nat → String) (rawKey : List Nat) :
    ∃ d, decodeTiDBKeyDetailed quote rawKey = some d := by
  obtain ⟨decoded, consumed, h, _⟩ := decodeMemcomparableBytes_bounds rawKey
  rw [decodeTiDBKeyDetailed_eq_describeKey, h, Option.some_bind]
  exact describeKey_total quote decoded _ _

theorem mvccSuffix_zero : mvccSuffix 0 = "" := by
  simp [mvccSuffix]

theorem chunkForm_injective (a b : List Nat) (h : chunkForm a = chunkForm b) : a = b := by
  have ha := decodeMemcomparableBytes_chunkForm_append a []
  have hb := decodeMemcomparableBytes_chunkForm_append b []
  rw [h, hb] at ha
  exact (congrArg Prod.fst (Option.some.inj ha)).symm

theorem chunkForm_extension (l rest : List Nat) :
    (List.Lex (· < ·) (chunkForm l) (chunkForm (l ++ rest)) ∨ chunkForm l = chunkForm (l ++ rest))
      ∧ (chunkForm l = chunkForm (l ++ rest) ↔ rest = [])
      ∧ (rest ≠ [] → List.Lex (· < ·) (chunkForm l) (chunkForm (l ++ rest))) := by
  have hlt : rest ≠ [] → List.Lex (· < ·) (chunkForm l) (chunkForm (l ++ rest)) := by
    intro hne
    apply chunkForm_lex_mono _ _ _ rfl
    apply lex_of_isPrefix_ne l (l ++ rest) (List.prefix_append l rest)
    intro e
    have e' : l ++ [] = l ++ rest := by rw [List.append_nil]; exact e
    exact hne (List.append_cancel_left e').symm
  have hiff : chunkForm l = chunkForm (l ++ rest) ↔ rest = [] := by
    constructor
    · intro e
      have e' : l ++ [] = l ++ rest := by
        rw [List.append_nil]; exact chunkForm_injective _ _ e
      exact (List.append_cancel_left e').symm
    · intro e
      rw [e, List.append_nil]
  refine ⟨?_, hiff, hlt⟩
  by_cases hr : rest = []
  · exact Or.inr (hiff.mpr hr)
  · exact Or.inl (hlt hr)

theorem serialiseColumn_length_pos (c : ColumnValue) : 0 < (serialiseColumn c).length := by
  cases c <;> simp [serialiseColumn]

theorem decodeIndexColumnsLoop_columns (quote : List Nat → String) :
    ∀ (cols : List ColumnValue) (pre : List Nat) (result : List String) (fuel : Nat),
      (∀ c ∈ cols, columnInRange c) → cols.length < fuel →
      decodeIndexColumnsLoop quote (pre ++ serialiseColumns cols) fuel result pre.length
        = some (result ++ cols.map (columnEntry quote)) := by
  intro cols
  induction cols with
  | nil =>
    intro pre result fuel _ hfuel
    obtain ⟨f, rfl⟩ : ∃ f, fuel = f + 1 := ⟨fuel - 1, by omega⟩
    unfold decodeIndexColumnsLoop
    simp [serialiseColumns]
  | cons c cols ih =>
    intro pre result fuel hr hfuel
    obtain ⟨f, rfl⟩ : ∃ f, fuel = f + 1 := ⟨fuel - 1, by omega⟩
    have hr' : ∀ c' ∈ cols, columnInRange c' := fun c' hc' => hr c' (List.mem_cons_of_mem c hc')
    have hf : cols.length < f := by simp only [List.length_cons] at hfuel; omega
    have hdata : serialiseColumns (c :: cols) = serialiseColumn c ++ serialiseColumns cols := by
      simp [serialiseColumns]
    have hpos : pre.length < (pre ++ serialiseColumns (c :: cols)).length := by
      have := serialiseColumn_length_pos c
      rw [hdata, List.length_append, List.length_append]
      omega
    unfold decodeIndexColumnsLoop
    rw [if_pos hpos]
    cases c with
    | int v =>
      have hv : isInt64 v := hr (ColumnValue.int v) (List.mem_cons_self _ _)
      have hd : pre ++ serialiseColumns (ColumnValue.int v :: cols)
          = (pre ++ [0x03]) ++ encodeI64 v ++ serialiseColumns cols := by
        rw [hdata]; simp [serialiseColumn]
      have hflag : (pre ++ serialiseColumns (ColumnValue.int v :: cols))[pre.length]? = some 0x03 := by
        rw [hdata, List.getElem?_append_right (Nat.le_refl _)]
        simp [serialiseColumn]
      have hsl : slice (pre ++ serialiseColumns (ColumnValue.int v :: cols)) (pre.length + 1)
          (pre.length + 1 + 8) = some (encodeI64 v) := by
        have h := slice_append_mid (pre ++ [0x03]) (encodeI64 v) (serialiseColumns cols)
        rw [← hd, encodeI64_length] at h
        simpa using h
      have hle : pre.length + 1 + 8 ≤ (pre ++ serialiseColumns (ColumnValue.int v :: cols)).length := by
        rw [hd]; simp [encodeI64_length]; omega
      simp only [hflag, Option.bind_eq_bind, Option.some_bind, if_true, hle, hsl,
        decodeI64_encodeI64 v hv]
      have hlen : pre.length + 1 + 8 = (pre ++ [0x03] ++ encodeI64 v).length := by
        simp [encodeI64_length]
      rw [hd, hlen, ih (pre ++ [0x03] ++ encodeI64 v) _ f hr' hf]
      simp [columnEntry]
    | bytes b =>
      have hd : pre ++ serialiseColumns (ColumnValue.bytes b :: cols)
          = (pre ++ [0x01]) ++ (chunkForm b ++ serialiseColumns cols) := by
        rw [hdata]
        simp [serialiseColumn, encodeMemcomparableBytes_eq_chunkForm]
      have hflag : (pre ++ serialiseColumns (ColumnValue.bytes b :: cols))[pre.length]?
          = some 0x01 := by
        rw [hdata, List.getElem?_append_right (Nat.le_refl _)]
        simp [serialiseColumn]
      have hle : pre.length + 1 ≤ (pre ++ serialiseColumns (ColumnValue.bytes b :: cols)).length := by
        omega
      have hdrop : (pre ++ serialiseColumns (ColumnValue.bytes b :: cols)).drop (pre.length + 1)
          = chunkForm b ++ serialiseColumns cols := by
        rw [hd]
        have e : pre.length + 1 = (pre ++ [0x01]).length := by simp
        rw [e, List.drop_left]
      have hinner := decodeIndexColumnsBytesLoop_eq_decode
        (pre ++ serialiseColumns (ColumnValue.bytes b :: cols)) (pre.length + 1) hle
      rw [hdrop, decodeMemcomparableBytes_chunkForm_append, Option.map_some'] at hinner
      obtain ⟨valid, hvalid⟩ := isValidUTF8_total b
      simp only [hflag, Option.bind_eq_bind, Option.some_bind, hinner, hvalid]
      have hlen : pre.length + 1 + 9 * (b.length / 8 + 1)
          = (pre ++ [0x01] ++ chunkForm b).length := by
        simp only [List.length_append, List.length_singleton, chunkForm_length b.length b rfl]
      have hd' : pre ++ serialiseColumns (ColumnValue.bytes b :: cols)
          = (pre ++ [0x01] ++ chunkForm b) ++ serialiseColumns cols := by
        rw [hd]; simp
      rw [hd', hlen]
      cases valid with
      | true =>
        simp only [if_true, Nat.reduceEqDiff, if_false]
        rw [ih (pre ++ [0x01] ++ chunkForm b) _ f hr' hf]
        simp [columnEntry, hvalid]
      | false =>
        simp only [Bool.false_eq_true, if_false, Nat.reduceEqDiff]
        rw [ih (pre ++ [0x01] ++ chunkForm b) _ f hr' hf]
        simp [columnEntry, hvalid]

theorem serialiseColumns_length_ge (cols : List ColumnValue) :
    cols.length ≤ (serialiseColumns cols).length := by
  induction cols with
  | nil => simp [serialiseColumns]
  | cons c cols ih =>
    have h := serialiseColumn_length_pos c
    simp only [serialiseColumns, List.flatMap_cons, List.length_append, List.length_cons] at ih ⊢
    omega

theorem decodeIndexColumns_columns (quote : List Nat → String) (cols : List ColumnValue)
    (hne : cols ≠ []) (hr : ∀ c ∈ cols, columnInRange c) :
    decodeIndexColumnsLoop quote (serialiseColumns cols) ((serialiseColumns cols).length + 1) [] 0
        = some (cols.map (columnEntry quote))
      ∧ decodeIndexColumns quote (serialiseColumns cols)
        = some (String.intercalate ", " (cols.map (columnEntry quote))) := by
  have h := decodeIndexColumnsLoop_columns quote cols [] []
    ((serialiseColumns cols).length + 1) hr
    (by have := serialiseColumns_length_ge cols; omega)
  simp only [List.nil_append, List.length_nil] at h
  refine ⟨h, ?_⟩
  unfold decodeIndexColumns
  rw [h]
  simp only [Option.bind_eq_bind, Option.some_bind, List.length_map]
  rw [if_neg (by
    intro h0
    exact hne (List.length_eq_zero.mp h0))]

theorem decodeIndexValue_total (val : List Nat) : ∃ out, decodeIndexValue val = some out := by
  unfold decodeIndexValue
  rw [decodeIndexValueCandidates_eq]
  simp only [Option.bind_eq_bind, Option.some_bind]
  by_cases h : (handleCandidatesSpec val).length > 0
  · rw [if_pos h, List.getElem?_eq_getElem h, Option.some_bind]
    exact ⟨_, rfl⟩
  · rw [if_neg h]
    exact ⟨_, rfl⟩

/-- The iteration of the loop of `decodeIndexColumns` at a `0x01` tag byte. -/
theorem decodeIndexColumnsLoop_bytes_step (quote : List Nat → String) (data : List Nat)
    (p : Nat) (htag : data[p]? = some 0x01) (fuel : Nat) (result : List String)
    (decoded : List Nat) (consumed : Nat) (valid : Bool)
    (hd : decodeMemcomparableBytes (data.drop (p + 1)) = some (decoded, consumed))
    (hv : isValidUTF8 decoded = some valid) :
    decodeIndexColumnsLoop quote data (fuel + 1) result p
      = decodeIndexColumnsLoop quote data fuel
          (result ++ [if valid = true then "str=" ++ quote decoded
            else "bytes=<" ++ fmtLen decoded.length ++ " bytes>"]) (p + 1 + consumed) := by
  have hlt : p < data.length := by
    by_contra h
    rw [List.getElem?_eq_none (by omega)] at htag
    exact absurd htag (by simp)
  have hinner := decodeIndexColumnsBytesLoop_eq_decode data (p + 1) (by omega)
  rw [hd, Option.map_some'] at hinner
  rw [decodeIndexColumnsLoop, if_pos hlt, htag]
  simp only [Option.bind_eq_bind, Option.some_bind, hinner, hv]
  rw [if_pos trivial]
  cases valid with
  | true => simp
  | false => simp

/-! ## The claims -/

/-- C1. Order preservation of the integer transform: for all `int64` values `a` and `b`,
`a < b` exactly when `encodeI64 a` is lexicographically below `encodeI64 b`. -/
theorem encodeI64_order_preserving (a b : Int) (ha : isInt64 a) (hb : isInt64 b) :
    a < b ↔ lexLt (encodeI64 a) (encodeI64 b) :=
  encodeI64_lex_iff a b ha hb

theorem encodeI64_order_preserving_witness :
    isInt64 (-1) ∧ isInt64 0 ∧ ((-1 : Int) < 0 ↔ lexLt (encodeI64 (-1)) (encodeI64 0)) :=
  ⟨by decide, by decide, encodeI64_order_preserving (-1) 0 (by decide) (by decide)⟩

/-- C2. Integer round trip: for every `int64` value `v`, `decodeI64 (encodeI64 v)` returns
`v`. -/
theorem decodeI64_encodeI64_roundtrip (v : Int) (hv : isInt64 v) :
    decodeI64 (encodeI64 v) = some v :=
  decodeI64_encodeI64 v hv

theorem decodeI64_encodeI64_roundtrip_witness :
    isInt64 (-11875) ∧ decodeI64 (encodeI64 (-11875)) = some (-11875) :=
  ⟨by decide, decodeI64_encodeI64_roundtrip (-11875) (by decide)⟩

/-- C3. Chunk round trip: for every byte sequence `s`, decoding the encoding of `s` returns
`s` together with a consumed count equal to the whole encoded length. -/
theorem chunk_roundtrip (s : List Nat) :
    decodeMemcomparableBytes (encodeMemcomparableBytes s)
      = some (s, (encodeMemcomparableBytes s).length) := by
  have h := decodeMemcomparableBytes_chunkForm_append s []
  rw [List.append_nil] at h
  rw [encodeMemcomparableBytes_eq_chunkForm, h, chunkForm_length s.length s rfl]

/-- C4. Chunk order preservation on extensions: when `s₁` is a strict initial segment of `s₂`,
the encoding of `s₁` is lexicographically below the encoding of `s₂`. -/
theorem chunk_order_of_extension (s₁ s₂ : List Nat) (hp : s₁ <+: s₂) (hne : s₁ ≠ s₂) :
    lexLt (encodeMemcomparableBytes s₁) (encodeMemcomparableBytes s₂) := by
  rw [lexLt, encodeMemcomparableBytes_eq_chunkForm, encodeMemcomparableBytes_eq_chunkForm]
  exact chunkForm_lex_mono _ _ _ rfl (lex_of_isPrefix_ne s₁ s₂ hp hne)

theorem chunk_order_of_extension_witness :
    [1, 2] <+: [1, 2, 0] ∧ [1, 2] ≠ [1, 2, 0] ∧
      lexLt (encodeMemcomparableBytes [1, 2]) (encodeMemcomparableBytes [1, 2, 0]) :=
  ⟨by decide, by decide, chunk_order_of_extension [1, 2] [1, 2, 0] (by decide) (by decide)⟩

/-- C5. The chunked encoding preserves order on all inputs: `s₁` is lexicographically below
`s₂` exactly when the encoding of `s₁` is lexicographically below the encoding of `s₂`. -/
theorem chunk_order_preserving (s₁ s₂ : List Nat) :
    lexLt s₁ s₂ ↔ lexLt (encodeMemcomparableBytes s₁) (encodeMemcomparableBytes s₂) := by
  rw [lexLt, lexLt, encodeMemcomparableBytes_eq_chunkForm,
    encodeMemcomparableBytes_eq_chunkForm]
  exact chunkForm_lex_iff s₁ s₂

/-- C6. Layout of the chunked encoding: for `len(s) = 8k + r` with `r ≤ 7` the output is the
`k` full groups of `s`, each followed by `0xFF`, then the last `r` bytes zero-padded to 8 bytes
and the marker `0xF7 + r`; its length is `9 * (k + 1)`, its last byte is that marker, which is
below `0xFF`, and the empty input yields eight zero bytes followed by `0xF7`. -/
theorem chunk_layout_exact (s : List Nat) (k r : Nat) (hlen : s.length = 8 * k + r)
    (hr : r ≤ 7) :
    encodeMemcomparableBytes s = chunkLayout s k r
      ∧ (encodeMemcomparableBytes s).length = 9 * (k + 1)
      ∧ (encodeMemcomparableBytes s).length % 9 = 0
      ∧ (encodeMemcomparableBytes s).length ≠ 0
      ∧ (encodeMemcomparableBytes s).getLast? = some (0xf7 + r)
      ∧ 0xf7 + r < 0xff
      ∧ encodeMemcomparableBytes [] = [0, 0, 0, 0, 0, 0, 0, 0, 0xf7] := by
  have hk : s.length / 8 = k := by omega
  have hm : s.length % 8 = r := by omega
  have hl := chunkForm_length s.length s rfl
  have hg := chunkForm_getLast s
  rw [hk] at hl
  rw [hm] at hg
  rw [encodeMemcomparableBytes_eq_chunkForm, encodeMemcomparableBytes_eq_chunkForm]
  refine ⟨by rw [chunkForm, hk, hm], hl, by omega, by omega, hg, by omega, ?_⟩
  simp [chunkForm, chunkLayout]

theorem chunk_layout_exact_witness :
    [1, 2, 3, 4, 5, 6, 7, 8, 9].length = 8 * 1 + 1 ∧ 1 ≤ 7 ∧
      (encodeMemcomparableBytes [1, 2, 3, 4, 5, 6, 7, 8, 9]
          = chunkLayout [1, 2, 3, 4, 5, 6, 7, 8, 9] 1 1
        ∧ (encodeMemcomparableBytes [1, 2, 3, 4, 5, 6, 7, 8, 9]).length = 9 * (1 + 1)
        ∧ (encodeMemcomparableBytes [1, 2, 3, 4, 5, 6, 7, 8, 9]).length % 9 = 0
        ∧ (encodeMemcomparableBytes [1, 2, 3, 4, 5, 6, 7, 8, 9]).length ≠ 0
        ∧ (encodeMemcomparableBytes [1, 2, 3, 4, 5, 6, 7, 8, 9]).getLast? = some (0xf7 + 1)
        ∧ 0xf7 + 1 < 0xff
        ∧ encodeMemcomparableBytes [] = [0, 0, 0, 0, 0, 0, 0, 0, 0xf7]) :=
  ⟨by decide, by decide, chunk_layout_exact [1, 2, 3, 4, 5, 6, 7, 8, 9] 1 1 (by decide) (by decide)⟩

/-- C7. The chunked encoding is self-delimiting: for all byte sequences `s` and `t`, decoding
the encoding of `s` followed by `t` returns `s` and a consumed count equal to the length of the
encoding of `s`, so the bytes left over, `len(input) - consumed`, are exactly `len(t)`. -/
theorem chunk_self_delimiting (s t : List Nat) :
    decodeMemcomparableBytes (encodeMemcomparableBytes s ++ t)
        = some (s, (encodeMemcomparableBytes s).length)
      ∧ ((encodeMemcomparableBytes s ++ t).length : Int)
          - ((encodeMemcomparableBytes s).length : Int) = (t.length : Int) := by
  constructor
  · rw [encodeMemcomparableBytes_eq_chunkForm, decodeMemcomparableBytes_chunkForm_append,
      chunkForm_length s.length s rfl]
  · rw [List.length_append]
    push_cast
    omega

/-- C8, evaluated where it fails. At `table_id = 9223372036854775807` the `int64` addition
`tid + 1` of `main` wraps to the smallest `int64`, so the scan end key is the prefix of the
smallest table id and lies below every raw key of the table instead of above it. -/
theorem rawEndKey_maxInt64_not_upper_bound :
    rawEndKey maxInt64 = encodeTablePrefix minInt64
      ∧ ∀ rest : List Nat,
          lexLt (rawEndKey maxInt64) (encodeMemcomparableBytes ([116] ++ encodeI64 maxInt64 ++ rest))
          ∧ ¬ lexLt (encodeMemcomparableBytes ([116] ++ encodeI64 maxInt64 ++ rest))
              (rawEndKey maxInt64) := by
  refine ⟨by decide, fun rest => ?_⟩
  have hlt : lexLt (rawEndKey maxInt64)
      (encodeMemcomparableBytes ([116] ++ encodeI64 maxInt64 ++ rest)) := by
    have he : rawEndKey maxInt64 = encodeMemcomparableBytes ([116] ++ encodeI64 minInt64) := by
      decide
    rw [he, lexLt, encodeMemcomparableBytes_eq_chunkForm, encodeMemcomparableBytes_eq_chunkForm]
    apply chunkForm_lex_mono _ _ _ rfl
    have h := (encodeI64_lex_iff minInt64 maxInt64 (by decide) (by decide)).mp (by decide)
    have h2 := lex_append_of_length_eq [] rest h (by rw [encodeI64_length, encodeI64_length])
    rw [List.append_nil] at h2
    rw [List.append_assoc]
    exact List.Lex.append_left _ h2 [116]
  exact ⟨hlt, fun h => asymm_of (List.Lex (· < · : Nat → Nat → Prop)) hlt h⟩

/-- C9. Record key: for all `int64` values `table_id` and `row_id`, the 19-byte logical key
`'t' ++ encodeI64(table_id) ++ "_r" ++ encodeI64(row_id)` is described as
`key (tidb): table_id=<table_id>, record, row_id=<row_id>`. -/
theorem decodeLogicalKeyDetailed_record_key (quote : List Nat → String) (tableID rowID : Int)
    (ht : isInt64 tableID) (hr : isInt64 rowID) :
    ([116] ++ encodeI64 tableID ++ [95, 114] ++ encodeI64 rowID).length = 19
      ∧ decodeLogicalKeyDetailed quote ([116] ++ encodeI64 tableID ++ [95, 114] ++ encodeI64 rowID)
        = some ("key (tidb): table_id=" ++ fmtInt tableID ++ ", record, row_id="
            ++ fmtInt rowID) := by
  have hlen : ([116] ++ encodeI64 tableID ++ [95, 114] ++ encodeI64 rowID).length = 19 := by
    simp [encodeI64_length]
  have h0 : ([116] ++ encodeI64 tableID ++ [95, 114] ++ encodeI64 rowID)[0]? = some 116 := by
    simp
  have h1 : slice ([116] ++ encodeI64 tableID ++ [95, 114] ++ encodeI64 rowID) 1 9
      = some (encodeI64 tableID) := by
    have h := slice_append_mid [116] (encodeI64 tableID) ([95, 114] ++ encodeI64 rowID)
    simpa [encodeI64_length, List.append_assoc] using h
  have h2 : slice ([116] ++ encodeI64 tableID ++ [95, 114] ++ encodeI64 rowID) 9 11
      = some [95, 114] := by
    have h := slice_append_mid ([116] ++ encodeI64 tableID) [95, 114] (encodeI64 rowID)
    simpa [encodeI64_length, List.append_assoc] using h
  have h3 : slice ([116] ++ encodeI64 tableID ++ [95, 114] ++ encodeI64 rowID) 11 19
      = some (encodeI64 rowID) := by
    have h := slice_append_mid ([116] ++ encodeI64 tableID ++ [95, 114]) (encodeI64 rowID) []
    simpa [encodeI64_length, List.append_assoc] using h
  refine ⟨hlen, ?_⟩
  unfold decodeLogicalKeyDetailed
  simp only [hlen, h0, h1, h2, h3, Option.bind_eq_bind, Option.some_bind,
    decodeI64_encodeI64 tableID ht, decodeI64_encodeI64 rowID hr]
  simp

theorem decodeLogicalKeyDetailed_record_key_witness :
    isInt64 11875 ∧ isInt64 42 ∧
      ([116] ++ encodeI64 11875 ++ [95, 114] ++ encodeI64 42).length = 19 ∧
      decodeLogicalKeyDetailed (fun _ => "") ([116] ++ encodeI64 11875 ++ [95, 114] ++ encodeI64 42)
        = some "key (tidb): table_id=11875, record, row_id=42" :=
  ⟨by decide, by decide,
    decodeLogicalKeyDetailed_record_key (fun _ => "") 11875 42 (by decide) (by decide)⟩

/-- C10. Scan start keys: for every `int64` value `tid`, the 11-byte start key that `main`
builds for `--type record`, `'t' ++ encodeI64(tid) ++ "_r"`, parses in logical mode as a
record key of table `tid` with the row id truncated, and the start key for `--type index`,
`'t' ++ encodeI64(tid) ++ "_i"`, as an index key of table `tid` with the index id truncated. -/
theorem decodeLogicalKeyDetailed_start_key_truncated (quote : List Nat → String) (tid : Int)
    (ht : isInt64 tid) :
    txnStartKey tid "record" = [116] ++ encodeI64 tid ++ [95, 114]
      ∧ (txnStartKey tid "record").length = 11
      ∧ decodeLogicalKeyDetailed quote (txnStartKey tid "record")
          = some ("key (tidb): table_id=" ++ fmtInt tid ++ ", record (row_id truncated)")
      ∧ txnStartKey tid "index" = [116] ++ encodeI64 tid ++ [95, 105]
      ∧ (txnStartKey tid "index").length = 11
      ∧ decodeLogicalKeyDetailed quote (txnStartKey tid "index")
          = some ("key (tidb): table_id=" ++ fmtInt tid ++ ", index (index_id truncated)") := by
  have hr : txnStartKey tid "record" = [116] ++ encodeI64 tid ++ [95, 114] := by
    simp [txnStartKey]
  have hi : txnStartKey tid "index" = [116] ++ encodeI64 tid ++ [95, 105] := by
    simp [txnStartKey]
  refine ⟨hr, ?_, ?_, hi, ?_, ?_⟩
  · rw [hr]; simp [encodeI64_length]
  · rw [hr, decodeLogicalKeyDetailed_tagged quote tid ht [95, 114] (Or.inl rfl)]
    simp
  · rw [hi]; simp [encodeI64_length]
  · rw [hi, decodeLogicalKeyDetailed_tagged quote tid ht [95, 105] (Or.inr rfl)]
    simp

theorem decodeLogicalKeyDetailed_start_key_truncated_witness :
    isInt64 11875 ∧
      decodeLogicalKeyDetailed (fun _ => "") (txnStartKey 11875 "record")
        = some "key (tidb): table_id=11875, record (row_id truncated)" ∧
      decodeLogicalKeyDetailed (fun _ => "") (txnStartKey 11875 "index")
        = some "key (tidb): table_id=11875, index (index_id truncated)" :=
  ⟨by decide,
    (decodeLogicalKeyDetailed_start_key_truncated (fun _ => "") 11875 (by decide)).2.2.1,
    (decodeLogicalKeyDetailed_start_key_truncated (fun _ => "") 11875 (by decide)).2.2.2.2.2⟩

/-- C11. Column round trip: for every non-empty list of column values, an `int64` `v`
serialised as `0x03 ++ encodeI64(v)` or a byte string `b` serialised as
`0x01 ++ encodeMemcomparableBytes(b)`, `decodeIndexColumns` on the concatenation emits one
entry per column, in order: `int=v`, and for a byte string `str=` with the quoted text when
`b` decodes cleanly as text, otherwise `bytes=<len(b) bytes>`. The entries are joined with
`, `; the single column `abc` yields the single entry `str=` with the quoted `abc`. -/
theorem column_roundtrip (quote : List Nat → String) (cols : List ColumnValue)
    (hne : cols ≠ []) (hr : ∀ c ∈ cols, columnInRange c) :
    decodeIndexColumnsLoop quote (serialiseColumns cols) ((serialiseColumns cols).length + 1) [] 0
        = some (cols.map (columnEntry quote))
      ∧ (cols.map (columnEntry quote)).length = cols.length
      ∧ decodeIndexColumns quote (serialiseColumns cols)
        = some (String.intercalate ", " (cols.map (columnEntry quote)))
      ∧ decodeIndexColumns quote ([0x01] ++ encodeMemcomparableBytes [97, 98, 99])
        = some ("str=" ++ quote [97, 98, 99]) := by
  obtain ⟨h1, h2⟩ := decodeIndexColumns_columns quote cols hne hr
  refine ⟨h1, List.length_map _ _, h2, ?_⟩
  have h := (decodeIndexColumns_columns quote [ColumnValue.bytes [97, 98, 99]]
    (by simp) (by intro c hc; simp at hc; subst hc; trivial)).2
  have hv : isValidUTF8 [97, 98, 99] = some true := by decide
  have e : serialiseColumns [ColumnValue.bytes [97, 98, 99]]
      = [0x01] ++ encodeMemcomparableBytes [97, 98, 99] := by
    simp [serialiseColumns, serialiseColumn]
  rw [e] at h
  rw [h]
  simp [columnEntry, hv, String.intercalate, String.intercalate.go]

theorem column_roundtrip_witness :
    [ColumnValue.int (-7), ColumnValue.bytes [97, 98, 99], ColumnValue.bytes [255]] ≠ []
      ∧ (∀ c ∈ [ColumnValue.int (-7), ColumnValue.bytes [97, 98, 99], ColumnValue.bytes [255]],
          columnInRange c)
      ∧ decodeIndexColumns quoteAscii
          (serialiseColumns
            [ColumnValue.int (-7), ColumnValue.bytes [97, 98, 99], ColumnValue.bytes [255]])
        = some "int=-7, str=\"abc\", bytes=<1 bytes>"
      ∧ decodeIndexColumns quoteAscii ([0x01] ++ encodeMemcomparableBytes [97, 98, 99])
        = some "str=\"abc\"" :=
  ⟨by simp,
    by
      intro c hc
      simp only [List.mem_cons, List.mem_singleton, List.not_mem_nil, or_false] at hc
      rcases hc with rfl | rfl | rfl
      · exact (by decide : isInt64 (-7))
      · trivial
      · trivial,
    (column_roundtrip quoteAscii
      [ColumnValue.int (-7), ColumnValue.bytes [97, 98, 99], ColumnValue.bytes [255]]
      (by simp)
      (by
        intro c hc
        simp only [List.mem_cons, List.mem_singleton, List.not_mem_nil, or_false] at hc
        rcases hc with rfl | rfl | rfl
        · exact (by decide : isInt64 (-7))
        · trivial
        · trivial)).2.2.1.trans (by decide),
    (column_roundtrip quoteAscii
      [ColumnValue.int (-7), ColumnValue.bytes [97, 98, 99], ColumnValue.bytes [255]]
      (by simp)
      (by
        intro c hc
        simp only [List.mem_cons, List.mem_singleton, List.not_mem_nil, or_false] at hc
        rcases hc with rfl | rfl | rfl
        · exact (by decide : isInt64 (-7))
        · trivial
        · trivial)).2.2.2.trans (by decide)⟩

/-- C12. Key decoding never hard-fails: on every byte sequence `decodeLogicalKeyDetailed`,
`decodeTiDBKeyDetailed`, `isIndexKey` in both modes, `decodeIndexColumns` and
`decodeIndexValue` (its candidate list and its output) return a value; no slice or index expression leaves its
bounds and no call of `decodeI64` receives fewer than 8 bytes (either would give `none`). -/
theorem decoders_never_fail (quote : List Nat → String) (data : List Nat) :
    (∃ d, decodeLogicalKeyDetailed quote data = some d)
      ∧ (∃ d, decodeTiDBKeyDetailed quote data = some d)
      ∧ (∃ b, isIndexKey data true = some b)
      ∧ (∃ b, isIndexKey data false = some b)
      ∧ (∃ d, decodeIndexColumns quote data = some d)
      ∧ (∃ c, decodeIndexValueCandidates data = some c)
      ∧ (∃ out, decodeIndexValue data = some out) :=
  ⟨decodeLogicalKeyDetailed_total quote data, decodeTiDBKeyDetailed_total quote data,
    isIndexKey_total data true, isIndexKey_total data false, decodeIndexColumns_total quote data,
    ⟨_, decodeIndexValueCandidates_eq data⟩, decodeIndexValue_total data⟩

/-- C13 as stated fails: on a 17-byte blob the tail probe reads offset `17 - 8 = 9`, the same
window as the offset-9 probe, so the candidate `{9, 555}` is recorded twice. -/
theorem handle_scenario_has_two_candidates :
    ([0] ++ encodeI64 (-5) ++ encodeI64 555).length = 17
      ∧ slice ([0] ++ encodeI64 (-5) ++ encodeI64 555) 9 17 = some (encodeI64 555)
      ∧ (slice ([0] ++ encodeI64 (-5) ++ encodeI64 555) 1 9).bind decodeI64 = some (-5)
      ∧ decodeIndexValueCandidates ([0] ++ encodeI64 (-5) ++ encodeI64 555)
          = some [(9, 555), (9, 555)]
      ∧ decodeIndexValueCandidates ([0] ++ encodeI64 (-5) ++ encodeI64 555)
          ≠ some [(9, 555)] := by
  decide

/-- C13, as the code has it. A 17-byte blob whose bytes `[9:17]` equal `encodeI64(555)` and
whose window at offset 1 decodes to a value outside the open range `(0, 1_000_000_000)` yields
the candidate `{offset: 9, value: 555}` twice, once from the tail probe at offset
`len - 8 = 9` and once from the offset-9 probe, and nothing else. -/
theorem handle_scenario_candidates (val : List Nat) (hlen : val.length = 17)
    (h9 : slice val 9 17 = some (encodeI64 555))
    (h1 : ∀ v : Int, (slice val 1 9).bind decodeI64 = some v → ¬ (0 < v ∧ v < 1000000000)) :
    decodeIndexValueCandidates val = some [(9, 555), (9, 555)] := by
  rw [decodeIndexValueCandidates_eq]
  rw [slice_eq_some val 9 17 (by omega) (by omega)] at h9
  have e9 : (val.drop 9).take 8 = encodeI64 555 := by
    simpa using h9
  have a9 : acceptedAt val 9 = [(9, 555)] := by
    unfold acceptedAt
    rw [e9, decodeI64_encodeI64 555 (by decide)]
    simp
  have a1 : acceptedAt val 1 = [] := by
    unfold acceptedAt
    rw [slice_eq_some val 1 9 (by omega) (by omega)] at h1
    simp only [Option.some_bind, Nat.add_one_sub_one, Nat.reduceSub] at h1
    split
    · rename_i v hv
      rw [if_neg (h1 v hv)]
    · rfl
  simp [handleCandidatesSpec, handleProbeOffsets, hlen, a1, a9]

theorem handle_scenario_candidates_witness :
    ([0] ++ encodeI64 (-5) ++ encodeI64 555).length = 17
      ∧ slice ([0] ++ encodeI64 (-5) ++ encodeI64 555) 9 17 = some (encodeI64 555)
      ∧ decodeIndexValueCandidates ([0] ++ encodeI64 (-5) ++ encodeI64 555)
          = some [(9, 555), (9, 555)] :=
  ⟨by decide, by decide,
    handle_scenario_candidates ([0] ++ encodeI64 (-5) ++ encodeI64 555) (by decide) (by decide)
      (by
        intro v hv
        have e : (slice ([0] ++ encodeI64 (-5) ++ encodeI64 555) 1 9).bind decodeI64
            = some (-5) := by decide
        rw [e] at hv
        have hv' : v = -5 := (Option.some.inj hv).symm
        subst hv'
        decide)⟩

/-- C14. Malformed marker: on `n` full groups (8 payload bytes and the marker `0xFF`) followed
by a 9-byte group whose marker `m` has `0xFF - m > 8` and then any further bytes,
`decodeMemcomparableBytes` returns the `8n` payload bytes of the full groups, none of the
malformed group, and the consumed count `9 * (n + 1)`, which lies within the input. -/
theorem malformed_marker_stops (gs : List (List Nat)) (bad : List Nat) (m : Nat)
    (rest : List Nat) (hgs : ∀ g ∈ gs, g.length = 8) (hbad : bad.length = 8)
    (hm : 0xff - m > 8) :
    decodeMemcomparableBytes (gs.flatMap (fun g => g ++ [0xff]) ++ bad ++ [m] ++ rest)
        = some (gs.flatMap id, 9 * (gs.length + 1))
      ∧ (gs.flatMap id).length = 8 * gs.length
      ∧ 9 * (gs.length + 1)
          ≤ (gs.flatMap (fun g => g ++ [0xff]) ++ bad ++ [m] ++ rest).length := by
  obtain ⟨h1, h2⟩ := fullGroups_length gs hgs
  have hlen : (gs.flatMap (fun g => g ++ [0xff]) ++ bad ++ [m] ++ rest).length
      = 9 * (gs.length + 1) + rest.length := by
    simp only [List.length_append, h1, hbad, List.length_singleton]
    omega
  refine ⟨?_, h2, by omega⟩
  rw [decodeMemcomparableBytes]
  exact decodeMemcomparableBytesLoop_malformed gs bad m rest hgs hbad hm _ (by omega)

theorem malformed_marker_stops_witness :
    (∀ g ∈ [[1, 2, 3, 4, 5, 6, 7, 8]], g.length = 8) ∧ [9, 9, 9, 9, 9, 9, 9, 9].length = 8
      ∧ 0xff - 0 > 8
      ∧ decodeMemcomparableBytes
          ([1, 2, 3, 4, 5, 6, 7, 8, 0xff] ++ [9, 9, 9, 9, 9, 9, 9, 9] ++ [0] ++ [7, 7])
        = some ([1, 2, 3, 4, 5, 6, 7, 8], 18) :=
  ⟨by decide, by decide, by decide,
    (malformed_marker_stops [[1, 2, 3, 4, 5, 6, 7, 8]] [9, 9, 9, 9, 9, 9, 9, 9] 0 [7, 7]
      (by decide) (by decide) (by decide)).1⟩

/-- C15. The candidate list of the handle heuristic is the in-order list of the probes at
offset 1 (if `len(val) >= 9`), `len(val) - 8` (if `len(val) >= 8`) and 9 (if `len(val) >= 17`)
whose window value lies strictly between 0 and 1,000,000,000. Hence every candidate value is in
that range, the list is empty below 8 bytes, and an accepted window at offset 1 comes first. -/
theorem handle_candidates_are_accepted_probes (val : List Nat) :
    decodeIndexValueCandidates val = some (handleCandidatesSpec val)
      ∧ (∀ c ∈ handleCandidatesSpec val, 0 < c.2 ∧ c.2 < 1000000000)
      ∧ (val.length < 8 → handleCandidatesSpec val = [])
      ∧ (∀ v : Int, 9 ≤ val.length → (slice val 1 9).bind decodeI64 = some v →
          0 < v → v < 1000000000 → (handleCandidatesSpec val).head? = some (1, v)) := by
  refine ⟨decodeIndexValueCandidates_eq val, ?_, ?_, ?_⟩
  · intro c hc
    unfold handleCandidatesSpec at hc
    rw [List.mem_flatMap] at hc
    obtain ⟨off, _, hc⟩ := hc
    exact (acceptedAt_range val off c hc).2
  · intro h
    have a : ¬ 9 ≤ val.length := by omega
    have b : ¬ 8 ≤ val.length := by omega
    have c : ¬ 17 ≤ val.length := by omega
    simp [handleCandidatesSpec, handleProbeOffsets, a, b, c]
  · intro v h9 hv h0 h1
    rw [slice_eq_some val 1 9 (by omega) h9, Option.some_bind] at hv
    have ha : acceptedAt val 1 = [(1, v)] := by
      unfold acceptedAt
      simp only [hv, h0, h1, and_self, if_true]
    simp [handleCandidatesSpec, handleProbeOffsets, h9, ha]

/-- C16. Raw mode is logical mode after chunk unwrapping: for every byte sequence `k` that is
empty, does not start with `t`, or has at least 9 bytes, `decodeTiDBKeyDetailed` on the
encoding of `k` returns the description that `decodeLogicalKeyDetailed` returns on `k`, with
no trailing-byte note. -/
theorem raw_mode_is_logical_after_unwrap (quote : List Nat → String) (k : List Nat)
    (h : k = [] ∨ k[0]? ≠ some 116 ∨ 9 ≤ k.length) :
    decodeTiDBKeyDetailed quote (encodeMemcomparableBytes k) = decodeLogicalKeyDetailed quote k
      ∧ ∃ d, decodeLogicalKeyDetailed quote k = some d := by
  refine ⟨?_, decodeLogicalKeyDetailed_total quote k⟩
  have hd := decodeMemcomparableBytes_chunkForm_append k []
  rw [List.append_nil] at hd
  have hl := chunkForm_length k.length k rfl
  rw [decodeTiDBKeyDetailed_eq_describeKey, encodeMemcomparableBytes_eq_chunkForm, hd,
    Option.some_bind, hl, decodeLogicalKeyDetailed_eq_describeKey]
  simp only [sub_self, mvccSuffix_zero]
  exact describeKey_shortNote quote k "" _ _ h

theorem raw_mode_is_logical_after_unwrap_witness :
    ([116] ++ encodeI64 11875 ++ [95, 105] ++ encodeI64 3 ++ [3] ++ encodeI64 (-7) = []
        ∨ ([116] ++ encodeI64 11875 ++ [95, 105] ++ encodeI64 3 ++ [3] ++ encodeI64 (-7))[0]?
            ≠ some 116
        ∨ 9 ≤ ([116] ++ encodeI64 11875 ++ [95, 105] ++ encodeI64 3 ++ [3]
            ++ encodeI64 (-7)).length)
      ∧ decodeTiDBKeyDetailed (fun _ => "") (encodeMemcomparableBytes
          ([116] ++ encodeI64 11875 ++ [95, 105] ++ encodeI64 3 ++ [3] ++ encodeI64 (-7)))
        = decodeLogicalKeyDetailed (fun _ => "")
            ([116] ++ encodeI64 11875 ++ [95, 105] ++ encodeI64 3 ++ [3] ++ encodeI64 (-7))
      ∧ decodeLogicalKeyDetailed (fun _ => "")
            ([116] ++ encodeI64 11875 ++ [95, 105] ++ encodeI64 3 ++ [3] ++ encodeI64 (-7))
        = some "key (tidb): table_id=11875, index_id=3\n  key (index): int=-7" :=
  ⟨by decide,
    (raw_mode_is_logical_after_unwrap (fun _ => "")
      ([116] ++ encodeI64 11875 ++ [95, 105] ++ encodeI64 3 ++ [3] ++ encodeI64 (-7))
      (by decide)).1,
    by decide⟩

/-- C17 as stated fails: with one byte left over after chunk decoding, the not-a-table-key,
too-short and table-prefix results carry no trailing-byte note. -/
theorem mvcc_note_missing_on_untagged_keys :
    (decodeMemcomparableBytes (encodeMemcomparableBytes [] ++ [0]) = some ([], 9)
      ∧ ((encodeMemcomparableBytes [] ++ [0]).length : Int) - 9 = 1
      ∧ decodeTiDBKeyDetailed (fun _ => "") (encodeMemcomparableBytes [] ++ [0])
          = some "key (tidb): not a table key"
      ∧ ¬ strContains "key (tidb): not a table key" "(+ 1 bytes mvcc)")
    ∧ (decodeMemcomparableBytes (encodeMemcomparableBytes [116, 1] ++ [0]) = some ([116, 1], 9)
      ∧ ((encodeMemcomparableBytes [116, 1] ++ [0]).length : Int) - 9 = 1
      ∧ decodeTiDBKeyDetailed (fun _ => "") (encodeMemcomparableBytes [116, 1] ++ [0])
          = some "key (tidb): table key too short (2 decoded bytes)"
      ∧ ¬ strContains "key (tidb): table key too short (2 decoded bytes)" "(+ 1 bytes mvcc)")
    ∧ (decodeMemcomparableBytes (encodeTablePrefix 5 ++ [0]) = some ([116] ++ encodeI64 5, 18)
      ∧ ((encodeTablePrefix 5 ++ [0]).length : Int) - 18 = 1
      ∧ decodeTiDBKeyDetailed (fun _ => "") (encodeTablePrefix 5 ++ [0])
          = some "key (tidb): table_id=5"
      ∧ ¬ strContains "key (tidb): table_id=5" "(+ 1 bytes mvcc)") := by
  decide

/-- C17, as the code has it. In raw mode, when bytes remain beyond those consumed by chunk
decoding and the decoded key is tag-bearing (at least 11 decoded bytes starting with `t`: the
record, index and unknown-tag results), the description is returned and contains
`(+ <remaining> bytes mvcc)`. -/
theorem mvcc_note_on_tagged_keys (quote : List Nat → String) (rawKey key : List Nat)
    (consumed : Nat) (hdec : decodeMemcomparableBytes rawKey = some (key, consumed))
    (hrem : (rawKey.length : Int) - (consumed : Int) > 0) (h11 : 11 ≤ key.length)
    (ht : key[0]? = some 116) :
    ∃ d, decodeTiDBKeyDetailed quote rawKey = some d
      ∧ strContains d ("(+ " ++ fmtInt ((rawKey.length : Int) - (consumed : Int))
          ++ " bytes mvcc)") := by
  obtain ⟨d, hd, hc⟩ := describeKey_contains_suffix quote key
    (mvccSuffix ((rawKey.length : Int) - (consumed : Int))) " decoded bytes)" h11 ht
  refine ⟨d, ?_, strContains_trans ?_ hc⟩
  · rw [decodeTiDBKeyDetailed_eq_describeKey, hdec, Option.some_bind]
    exact hd
  · rw [mvccSuffix, if_pos hrem]
    have e : " (+ " ++ fmtInt ((rawKey.length : Int) - (consumed : Int)) ++ " bytes mvcc)"
        = " " ++ ("(+ " ++ fmtInt ((rawKey.length : Int) - (consumed : Int)) ++ " bytes mvcc)") := by
      simp only [← String.append_assoc]
      rfl
    rw [e]
    exact strContains_append_left _ _

theorem mvcc_note_on_tagged_keys_witness :
    decodeMemcomparableBytes
        (encodeMemcomparableBytes ([116] ++ encodeI64 11875 ++ [95, 114] ++ encodeI64 42)
          ++ [1, 2, 3])
      = some ([116] ++ encodeI64 11875 ++ [95, 114] ++ encodeI64 42, 27)
    ∧ (((encodeMemcomparableBytes ([116] ++ encodeI64 11875 ++ [95, 114] ++ encodeI64 42)
          ++ [1, 2, 3]).length : Nat) : Int) - ((27 : Nat) : Int) > 0
    ∧ 11 ≤ ([116] ++ encodeI64 11875 ++ [95, 114] ++ encodeI64 42).length
    ∧ ([116] ++ encodeI64 11875 ++ [95, 114] ++ encodeI64 42)[0]? = some 116
    ∧ ∃ d, decodeTiDBKeyDetailed (fun _ => "")
          (encodeMemcomparableBytes ([116] ++ encodeI64 11875 ++ [95, 114] ++ encodeI64 42)
            ++ [1, 2, 3]) = some d
        ∧ strContains d ("(+ " ++ fmtInt
            ((((encodeMemcomparableBytes ([116] ++ encodeI64 11875 ++ [95, 114] ++ encodeI64 42)
              ++ [1, 2, 3]).length : Nat) : Int) - ((27 : Nat) : Int)) ++ " bytes mvcc)") :=
  ⟨by decide, by decide, by decide, by decide,
    mvcc_note_on_tagged_keys (fun _ => "")
      (encodeMemcomparableBytes ([116] ++ encodeI64 11875 ++ [95, 114] ++ encodeI64 42)
        ++ [1, 2, 3])
      ([116] ++ encodeI64 11875 ++ [95, 114] ++ encodeI64 42) 27
      (by decide) (by decide) (by decide) (by decide)⟩

/-- C18. The byte-string branch of `decodeIndexColumns` is the chunked decoder: at a position
`pos` just after a `0x01` tag byte of `data`, the inlined loop accumulates the bytes that
`decodeMemcomparableBytes(data[pos:])` decodes and advances `pos` by the count it consumes;
the iteration of the loop of `decodeIndexColumns` that reads that tag emits the entry of
exactly those bytes and continues at `pos` plus that count. When the tag is the first byte,
`decodeIndexColumns` is the rest of its loop after that entry. -/
theorem bytes_branch_is_chunk_decoder (quote : List Nat → String) (data : List Nat) (pos : Nat)
    (hpos : 0 < pos) (htag : data[pos - 1]? = some 0x01) (fuel : Nat) (result : List String) :
    ∃ decoded consumed valid,
      decodeMemcomparableBytes (data.drop pos) = some (decoded, consumed)
      ∧ sliceFrom data pos = some (data.drop pos)
      ∧ decodeIndexColumnsBytesLoop data (data.length / 9 + 1) [] pos
          = some (decoded, pos + consumed)
      ∧ isValidUTF8 decoded = some valid
      ∧ decodeIndexColumnsLoop quote data (fuel + 1) result (pos - 1)
          = decodeIndexColumnsLoop quote data fuel
              (result ++ [if valid = true then "str=" ++ quote decoded
                else "bytes=<" ++ fmtLen decoded.length ++ " bytes>"]) (pos + consumed)
      ∧ (pos = 1 → decodeIndexColumns quote data
          = (decodeIndexColumnsLoop quote data data.length
              [if valid = true then "str=" ++ quote decoded
                else "bytes=<" ++ fmtLen decoded.length ++ " bytes>"] (1 + consumed)).bind
            (fun entries =>
              if entries.length = 0 then some ("<" ++ fmtLen data.length ++ " bytes>")
              else some (String.intercalate ", " entries))) := by
  have hlt : pos - 1 < data.length := by
    by_contra h
    rw [List.getElem?_eq_none (by omega)] at htag
    exact absurd htag (by simp)
  have hle : pos ≤ data.length := by omega
  have hp : pos - 1 + 1 = pos := by omega
  obtain ⟨decoded, consumed, hd, _⟩ := decodeMemcomparableBytes_bounds (data.drop pos)
  obtain ⟨valid, hv⟩ := isValidUTF8_total decoded
  have hstep : ∀ (f : Nat) (r : List String),
      decodeIndexColumnsLoop quote data (f + 1) r (pos - 1)
        = decodeIndexColumnsLoop quote data f
            (r ++ [if valid = true then "str=" ++ quote decoded
              else "bytes=<" ++ fmtLen decoded.length ++ " bytes>"]) (pos + consumed) := by
    intro f r
    have h := decodeIndexColumnsLoop_bytes_step quote data (pos - 1) htag f r decoded consumed
      valid (by rw [hp]; exact hd) hv
    rw [hp] at h
    exact h
  refine ⟨decoded, consumed, valid, hd, by simp [sliceFrom, hle], ?_, hv, hstep fuel result, ?_⟩
  · rw [decodeIndexColumnsBytesLoop_eq_decode data pos hle, hd]
    rfl
  · intro h1
    subst h1
    have h := hstep data.length []
    simp only [Nat.sub_self, List.nil_append] at h
    unfold decodeIndexColumns
    rw [h]
    rfl

theorem bytes_branch_is_chunk_decoder_witness :
    0 < 1 ∧ ([1] ++ encodeMemcomparableBytes [97, 98, 99] ++ [3] ++ encodeI64 5)[1 - 1]?
        = some 0x01
      ∧ decodeMemcomparableBytes
          (([1] ++ encodeMemcomparableBytes [97, 98, 99] ++ [3] ++ encodeI64 5).drop 1)
        = some ([97, 98, 99], 9)
      ∧ decodeIndexColumns quoteAscii
          ([1] ++ encodeMemcomparableBytes [97, 98, 99] ++ [3] ++ encodeI64 5)
        = some "str=\"abc\", int=5"
      ∧ ∃ decoded consumed valid,
          decodeMemcomparableBytes
              (([1] ++ encodeMemcomparableBytes [97, 98, 99] ++ [3] ++ encodeI64 5).drop 1)
            = some (decoded, consumed)
          ∧ sliceFrom ([1] ++ encodeMemcomparableBytes [97, 98, 99] ++ [3] ++ encodeI64 5) 1
            = some (([1] ++ encodeMemcomparableBytes [97, 98, 99] ++ [3] ++ encodeI64 5).drop 1)
          ∧ decodeIndexColumnsBytesLoop
              ([1] ++ encodeMemcomparableBytes [97, 98, 99] ++ [3] ++ encodeI64 5)
              (([1] ++ encodeMemcomparableBytes [97, 98, 99] ++ [3] ++ encodeI64 5).length / 9
                + 1) [] 1
            = some (decoded, 1 + consumed)
          ∧ isValidUTF8 decoded = some valid
          ∧ decodeIndexColumnsLoop quoteAscii
              ([1] ++ encodeMemcomparableBytes [97, 98, 99] ++ [3] ++ encodeI64 5) (2 + 1) []
              (1 - 1)
            = decodeIndexColumnsLoop quoteAscii
                ([1] ++ encodeMemcomparableBytes [97, 98, 99] ++ [3] ++ encodeI64 5) 2
                ([] ++ [if valid = true then "str=" ++ quoteAscii decoded
                  else "bytes=<" ++ fmtLen decoded.length ++ " bytes>"]) (1 + consumed)
          ∧ (1 = 1 → decodeIndexColumns quoteAscii
                ([1] ++ encodeMemcomparableBytes [97, 98, 99] ++ [3] ++ encodeI64 5)
              = (decodeIndexColumnsLoop quoteAscii
                  ([1] ++ encodeMemcomparableBytes [97, 98, 99] ++ [3] ++ encodeI64 5)
                  ([1] ++ encodeMemcomparableBytes [97, 98, 99] ++ [3] ++ encodeI64 5).length
                  [if valid = true then "str=" ++ quoteAscii decoded
                    else "bytes=<" ++ fmtLen decoded.length ++ " bytes>"] (1 + consumed)).bind
                (fun entries =>
                  if entries.length = 0 then
                    some ("<" ++ fmtLen
                      ([1] ++ encodeMemcomparableBytes [97, 98, 99] ++ [3]
                        ++ encodeI64 5).length ++ " bytes>")
                  else some (String.intercalate ", " entries))) :=
  ⟨by decide, by decide, by decide, by decide,
    bytes_branch_is_chunk_decoder quoteAscii
      ([1] ++ encodeMemcomparableBytes [97, 98, 99] ++ [3] ++ encodeI64 5) 1
      (by decide) (by decide) 2 []⟩

/-- C19. For every input, `decodeMemcomparableBytes` returns; the consumed count is a multiple
of 9 and at most `len(input)`, so `len(input) - consumed` is not negative, and the number of
decoded bytes is at most `8 * (consumed / 9)`. -/
theorem decodeMemcomparableBytes_consumed_bounds (encoded : List Nat) :
    ∃ decoded consumed, decodeMemcomparableBytes encoded = some (decoded, consumed)
      ∧ consumed % 9 = 0 ∧ consumed ≤ encoded.length
      ∧ (0 : Int) ≤ (encoded.length : Int) - (consumed : Int)
      ∧ decoded.length ≤ 8 * (consumed / 9) := by
  obtain ⟨decoded, consumed, h, h1, h2, h3⟩ := decodeMemcomparableBytes_bounds encoded
  exact ⟨decoded, consumed, h, h1, h2, by omega, h3⟩

/-- C20. The raw-mode scan start key is a lower bound of the table's keys: for every table id,
every tag among none, `_r` and `_i` (as `main` selects it from `--type`) and every byte
sequence `rest`, the start key `encode('t' ++ encodeI64(tid) ++ tag)` is lexicographically
below or equal to `encode('t' ++ encodeI64(tid) ++ tag ++ rest)`, with equality exactly when
`rest` is empty. -/
theorem rawStartKey_lower_bound (tid : Int) (recordType : String) (tag rest : List Nat)
    (htag : (recordType = "record" ∧ tag = [95, 114]) ∨ (recordType = "index" ∧ tag = [95, 105])
      ∨ (recordType ≠ "record" ∧ recordType ≠ "index" ∧ tag = [])) :
    rawStartKey tid recordType = encodeMemcomparableBytes ([116] ++ encodeI64 tid ++ tag)
      ∧ (lexLt (rawStartKey tid recordType)
            (encodeMemcomparableBytes ([116] ++ encodeI64 tid ++ tag ++ rest))
          ∨ rawStartKey tid recordType
            = encodeMemcomparableBytes ([116] ++ encodeI64 tid ++ tag ++ rest))
      ∧ (rawStartKey tid recordType
            = encodeMemcomparableBytes ([116] ++ encodeI64 tid ++ tag ++ rest) ↔ rest = [])
      ∧ (rest ≠ [] → lexLt (rawStartKey tid recordType)
            (encodeMemcomparableBytes ([116] ++ encodeI64 tid ++ tag ++ rest))) := by
  have hs : rawStartKey tid recordType
      = encodeMemcomparableBytes ([116] ++ encodeI64 tid ++ tag) := by
    rcases htag with ⟨h1, h2⟩ | ⟨h1, h2⟩ | ⟨h1, h2, h3⟩
    · subst h1 h2; simp [rawStartKey]
    · subst h1 h2; simp [rawStartKey]
    · subst h3; simp [rawStartKey, h1, h2]
  have h := chunkForm_extension ([116] ++ encodeI64 tid ++ tag) rest
  rw [hs, lexLt, encodeMemcomparableBytes_eq_chunkForm, encodeMemcomparableBytes_eq_chunkForm]
  exact ⟨rfl, h.1, h.2.1, h.2.2⟩

theorem rawStartKey_lower_bound_witness :
    (("record" = "record" ∧ [95, 114] = [95, 114]) ∨ ("record" = "index" ∧ [95, 114] = [95, 105])
        ∨ ("record" ≠ "record" ∧ "record" ≠ "index" ∧ [95, 114] = ([] : List Nat)))
      ∧ lexLt (rawStartKey 11875 "record")
          (encodeMemcomparableBytes ([116] ++ encodeI64 11875 ++ [95, 114] ++ encodeI64 42)) :=
  ⟨by decide,
    (rawStartKey_lower_bound 11875 "record" [95, 114] (encodeI64 42) (by decide)).2.2.2
      (by decide)⟩

end TikvCodec
